/-
  Verification of the clustering-bandits repository against its
  natural-language specification.

  The Lean definitions below are a shallow embedding of the Python sources
  (src/clustering_bandits/src/agents.py, CLUB.py, core.py, environment.py).
  Numeric state is modelled over the reals; numpy floating-point behaviour
  is modelled separately by the NpFloat type where a claim is about NaN or
  infinities.  Definitions whose doc comment says so are modelled from the
  spec's words, for refinement comparison only; every other definition is a
  translation of the source.
-/
import Mathlib

namespace ClusteringBandits

noncomputable section

/-! ## Vector and argmax preliminaries -/

/-- Dot product of two real vectors (numpy `np.dot` / `@` on 1-d arrays). -/
def dotv {d : ℕ} (x y : Fin d → ℝ) : ℝ := ∑ i, x i * y i

/-- Outer product `np.outer(x, y)` of two vectors, as a matrix. -/
def outer {d : ℕ} (x y : Fin d → ℝ) : Matrix (Fin d) (Fin d) ℝ :=
  Matrix.of fun i j => x i * y j

/-- Scan underlying `np.argmax` over real scores: keeps the first maximum,
replacing the running best only on a strictly greater value. -/
def argmaxAux : List ℝ → ℕ → ℝ → ℕ → ℕ
  | [], bi, _, _ => bi
  | x :: xs, bi, bv, k =>
    if bv < x then argmaxAux xs k x (k + 1) else argmaxAux xs bi bv (k + 1)

/-- Semantics of `np.argmax` on a list of real scores: index of the first
maximal element (0 on an empty list, matching no meaningful call). -/
def argmaxList : List ℝ → ℕ
  | [] => 0
  | x :: xs => argmaxAux xs 0 x 1

/-! ## LinUCBAgent (agents.py lines 100-156) -/

/-- State of `LinUCBAgent`: constructor configuration together with the
mutable fields set by `reset` and mutated by `pull_arm` / `update`.
`last_pull_i` is `None` before the first pull in Python; it is only ever
read after a pull, so it is modelled as a plain natural number. -/
structure LinUCBAgent (d : ℕ) where
  arms : List (Fin d → ℝ)
  horizon : ℕ
  lmbd : ℝ
  max_theta_norm : ℝ
  max_arm_norm : ℝ
  t : ℕ
  a_hist : List ℕ
  last_pull_i : ℕ
  V_t : Matrix (Fin d) (Fin d) ℝ
  b_vect : Fin d → ℝ
  theta_hat : Fin d → ℝ
  last_ucb : List ℝ
  first : Bool

/-- `LinUCBAgent.__init__` followed by `reset` (agents.py lines 101-118). -/
def LinUCBAgent.init (d : ℕ) (arms : List (Fin d → ℝ)) (horizon : ℕ)
    (lmbd max_theta_norm max_arm_norm : ℝ) : LinUCBAgent d :=
  { arms := arms, horizon := horizon, lmbd := lmbd,
    max_theta_norm := max_theta_norm, max_arm_norm := max_arm_norm,
    t := 0, a_hist := [], last_pull_i := 0,
    V_t := lmbd • (1 : Matrix (Fin d) (Fin d) ℝ),
    b_vect := 0, theta_hat := 0,
    last_ucb := List.replicate arms.length 0, first := true }

/-- `_beta_t_fun_linucb` (agents.py lines 149-156): reads only the
constructor configuration (`horizon`, `lmbd`, norm bounds, `arm_dim`). -/
def LinUCBAgent.beta_t_fun_linucb {d : ℕ} (s : LinUCBAgent d) : ℝ :=
  s.max_theta_norm * Real.sqrt s.lmbd +
    Real.sqrt (2 * Real.log s.horizon +
      d * Real.log ((d * s.lmbd + s.horizon * s.max_arm_norm ^ 2) / (d * s.lmbd)))

/-- The UCB scores computed by `_estimate_linucb_arm` (agents.py lines
141-147): `theta_hat . a + bound * sqrt(a^T V^-1 a)` for each arm row. -/
def LinUCBAgent.ucbScores {d : ℕ} (s : LinUCBAgent d) : List ℝ :=
  s.arms.map fun a =>
    dotv s.theta_hat a + s.beta_t_fun_linucb * Real.sqrt (dotv a ((s.V_t)⁻¹.mulVec a))

/-- `_estimate_linucb_arm`: stores the scores in `last_ucb` and returns the
argmax index. -/
def LinUCBAgent.estimate {d : ℕ} (s : LinUCBAgent d) : LinUCBAgent d × ℕ :=
  ({ s with last_ucb := s.ucbScores }, argmaxList s.ucbScores)

/-- `pull_arm` with `arm_i=None` (agents.py lines 120-132).  `rand` is the
value of `int(np.random.uniform(high=self.n_arms))`, the draw taken from
the global numpy generator on the first call. -/
def LinUCBAgent.pull_arm {d : ℕ} (s : LinUCBAgent d) (rand : ℕ) : LinUCBAgent d :=
  if s.first then
    { s with last_pull_i := rand, first := false, a_hist := s.a_hist ++ [rand] }
  else
    let p := s.estimate
    { p.1 with last_pull_i := p.2, a_hist := s.a_hist ++ [p.2] }

/-- `pull_arm` with an explicit `arm_i` (agents.py lines 121-124), the path
used by `ProductLinUCBAgent` to force the sub-agents' bookkeeping. -/
def LinUCBAgent.pull_arm_forced {d : ℕ} (s : LinUCBAgent d) (arm_i : ℕ) : LinUCBAgent d :=
  { s with a_hist := s.a_hist ++ [arm_i], last_pull_i := arm_i }

/-- `update` (agents.py lines 134-139): rank-one update of `V`, reward
accumulation into `b`, full recomputation of `theta_hat`. -/
def LinUCBAgent.update {d : ℕ} (s : LinUCBAgent d) (reward : ℝ) : LinUCBAgent d :=
  let a := s.arms.getD s.last_pull_i 0
  let V' := s.V_t + outer a a
  let b' := s.b_vect + reward • a
  { s with V_t := V', b_vect := b', theta_hat := V'⁻¹.mulVec b', t := s.t + 1 }

/-- One simulated round for a plain LinUCB agent: a pull (with the given
random draw) followed by an update with the given reward. -/
def LinUCBAgent.runStep {d : ℕ} (s : LinUCBAgent d) (rand : ℕ) (reward : ℝ) :
    LinUCBAgent d :=
  (s.pull_arm rand).update reward

/-- The agent state after `k` rounds driven by a stream of random draws and
a stream of rewards. -/
def linIter {d : ℕ} (s0 : LinUCBAgent d) (draws : ℕ → ℕ) (rews : ℕ → ℝ) :
    ℕ → LinUCBAgent d
  | 0 => s0
  | k + 1 => (linIter s0 draws rews k).runStep (draws k) (rews k)

/-- Modelled from the spec's words (claim C5), for refinement comparison
only: the claimed confidence width
`max_theta_norm*sqrt(lambda) + sqrt(2*sigma^2*ln(t) + ln(det(V)/lambda^d))`
computed from the current round counter and design matrix. -/
def specConfWidth (d : ℕ) (lmbd max_theta_norm sigma : ℝ) (t : ℕ)
    (V : Matrix (Fin d) (Fin d) ℝ) : ℝ :=
  max_theta_norm * Real.sqrt lmbd +
    Real.sqrt (2 * sigma ^ 2 * Real.log t + Real.log (V.det / lmbd ^ d))

/-! ## ProductLinUCBAgent (agents.py lines 248-291) -/

/-- State of `ProductLinUCBAgent`: a global LinUCB sub-agent plus one LinUCB
sub-agent per context index. -/
structure ProductLinUCBAgent (d : ℕ) where
  arms : List (Fin d → ℝ)
  agent_global : LinUCBAgent d
  context_agent : ℕ → LinUCBAgent d
  last_context_i : ℕ
  t : ℕ
  a_hist : List ℕ
  last_pull_i : ℕ

/-- `ProductLinUCBAgent.pull_arm` (agents.py lines 263-272): sums the two
sub-agents' cached UCB score vectors, plays the joint argmax, and feeds the
same index to both sub-agents through the forced `pull_arm(arm_i=...)`
path. -/
def ProductLinUCBAgent.pull_arm {d : ℕ} (s : ProductLinUCBAgent d)
    (context_i : ℕ) : ProductLinUCBAgent d :=
  let ucb := List.zipWith (fun a b => a + b) s.agent_global.last_ucb
    (s.context_agent context_i).last_ucb
  let i := argmaxList ucb
  { s with
    last_context_i := context_i,
    agent_global := s.agent_global.pull_arm_forced i,
    context_agent := Function.update s.context_agent context_i
      ((s.context_agent context_i).pull_arm_forced i),
    last_pull_i := i,
    a_hist := s.a_hist ++ [i] }

/-- `ProductLinUCBAgent.update` (agents.py lines 274-278): the residual is
computed from the global sub-agent's current (pre-update) `theta_hat`, the
per-context sub-agent is updated on the residual, and only then is the
global sub-agent updated on the raw reward. -/
def ProductLinUCBAgent.update {d : ℕ} (s : ProductLinUCBAgent d)
    (reward : ℝ) : ProductLinUCBAgent d :=
  let pred := dotv s.agent_global.theta_hat
    (s.arms.getD s.agent_global.last_pull_i 0)
  let residual := reward - pred
  { s with
    context_agent := Function.update s.context_agent s.last_context_i
      ((s.context_agent s.last_context_i).update residual),
    agent_global := s.agent_global.update reward }

/-! ## Numpy floating-point model (for claim C10)

`NpFloat` models the IEEE-754 double values produced by the numpy formulas
in the sources: finite reals, the two infinities, and NaN.  Only the
operations those formulas use are defined, with numpy semantics
(`np.log(0) = -inf`, `sqrt` of a negative or `-inf` is NaN, division of a
nonzero value by zero gives a signed infinity, every operation on NaN gives
NaN). -/

/-- A numpy double: a finite real, an infinity, or NaN. -/
inductive NpFloat where
  | val : ℝ → NpFloat
  | inf : NpFloat
  | ninf : NpFloat
  | nan : NpFloat
deriving DecidableEq

namespace NpFloat

/-- IEEE addition. -/
def add : NpFloat → NpFloat → NpFloat
  | val x, val y => val (x + y)
  | val _, inf => inf
  | val _, ninf => ninf
  | inf, val _ => inf
  | ninf, val _ => ninf
  | inf, inf => inf
  | ninf, ninf => ninf
  | inf, ninf => nan
  | ninf, inf => nan
  | _, _ => nan

instance : Add NpFloat := ⟨add⟩

/-- IEEE multiplication (`0 * inf = nan`). -/
def mul : NpFloat → NpFloat → NpFloat
  | val x, val y => val (x * y)
  | val x, inf => if 0 < x then inf else if x < 0 then ninf else nan
  | val x, ninf => if 0 < x then ninf else if x < 0 then inf else nan
  | inf, val y => if 0 < y then inf else if y < 0 then ninf else nan
  | ninf, val y => if 0 < y then ninf else if y < 0 then inf else nan
  | inf, inf => inf
  | ninf, ninf => inf
  | inf, ninf => ninf
  | ninf, inf => ninf
  | _, _ => nan

instance : Mul NpFloat := ⟨mul⟩

/-- IEEE division by the (positive) zero produced by `np.zeros`:
`x/0 = sign(x) * inf`, `0/0 = nan`, `inf/inf = nan`. -/
def div : NpFloat → NpFloat → NpFloat
  | val x, val y =>
    if y = 0 then (if 0 < x then inf else if x < 0 then ninf else nan)
    else val (x / y)
  | inf, val y => if 0 ≤ y then inf else ninf
  | ninf, val y => if 0 ≤ y then ninf else inf
  | val _, inf => val 0
  | val _, ninf => val 0
  | _, _ => nan

instance : Div NpFloat := ⟨div⟩

/-- `np.sqrt`: NaN on negative inputs and on `-inf`. -/
def sqrtF : NpFloat → NpFloat
  | val x => if 0 ≤ x then val (Real.sqrt x) else nan
  | inf => inf
  | ninf => nan
  | nan => nan

/-- `np.log`: `-inf` at zero, NaN on negative inputs. -/
def logF : NpFloat → NpFloat
  | val x => if 0 < x then val (Real.log x) else if x = 0 then ninf else nan
  | inf => inf
  | _ => nan

/-- NaN test. -/
def isNan : NpFloat → Bool
  | nan => true
  | _ => false

/-- IEEE `<=`: false whenever either side is NaN. -/
def leF : NpFloat → NpFloat → Bool
  | val x, val y => decide (x ≤ y)
  | val _, inf => true
  | inf, inf => true
  | ninf, val _ => true
  | ninf, inf => true
  | ninf, ninf => true
  | _, _ => false

end NpFloat

/-- Scan underlying `np.argmax` on doubles: a candidate replaces the running
best when `not (candidate <= best)` holds, and the scan stops as soon as the
running best is NaN (numpy's "nan encountered" break).  Net effect: the
index of the first NaN if any NaN is present, else the first maximum. -/
def npArgmaxAux : List NpFloat → ℕ → NpFloat → ℕ → ℕ
  | [], bi, _, _ => bi
  | x :: xs, bi, bv, k =>
    if bv.isNan then bi
    else if NpFloat.leF x bv then npArgmaxAux xs bi bv (k + 1)
    else npArgmaxAux xs k x (k + 1)

/-- `np.argmax` on a list of doubles. -/
def npArgmax : List NpFloat → ℕ
  | [] => 0
  | x :: xs => npArgmaxAux xs 0 x 1

/-! ## UCB1Agent scores in floating point (agents.py lines 71-97) -/

/-- State of `UCB1Agent` relevant to `pull_arm`. -/
structure UCB1Agent where
  n_arms : ℕ
  max_reward : ℝ
  avg_reward : ℕ → ℝ
  n_pulls : ℕ → ℝ
  t : ℕ

/-- `UCB1Agent.__init__` + `reset`: zero averages and pull counts. -/
def UCB1Agent.init (n_arms : ℕ) (max_reward : ℝ) : UCB1Agent :=
  { n_arms := n_arms, max_reward := max_reward,
    avg_reward := fun _ => 0, n_pulls := fun _ => 0, t := 0 }

/-- The score list computed by `UCB1Agent.pull_arm` (agents.py lines 84-86),
in numpy doubles:
`avg_reward[a] + max_reward * sqrt(2 * log(t) / n_pulls[a])`. -/
def UCB1Agent.ucb1Scores (s : UCB1Agent) : List NpFloat :=
  (List.range s.n_arms).map fun a =>
    NpFloat.val (s.avg_reward a) +
      NpFloat.val s.max_reward *
        NpFloat.sqrtF (NpFloat.val 2 * NpFloat.logF (NpFloat.val s.t) /
          NpFloat.val (s.n_pulls a))

/-- The arm index chosen by `UCB1Agent.pull_arm` (agents.py line 87). -/
def UCB1Agent.pullIndex (s : UCB1Agent) : ℕ := npArgmax s.ucb1Scores

/-- `CLUB._beta` (CLUB.py lines 60-61) evaluated in numpy doubles:
`sqrt(arm_dim * log(1 + N/arm_dim) + 4 * log(t) + log(2)) + 1`. -/
def clubBetaF (d N t : ℕ) : NpFloat :=
  NpFloat.sqrtF (NpFloat.val d * NpFloat.logF (NpFloat.val 1 + NpFloat.val N / NpFloat.val d) +
      NpFloat.val 4 * NpFloat.logF (NpFloat.val t) + NpFloat.logF (NpFloat.val 2)) +
    NpFloat.val 1

/-! ## Python attribute and method dispatch (claims C3 and C9)

Attribute lookup on a Python object succeeds exactly when the attribute has
been assigned; otherwise it raises `AttributeError`.  The lists below record,
from the source text, which attributes each constructor assigns and which
methods each class defines. -/

/-- Attribute lookup: `Except.error` models the raised `AttributeError`. -/
def getattr (assigned : List String) (name : String) : Except String Unit :=
  if name ∈ assigned then Except.ok () else Except.error ("AttributeError: " ++ name)

/-- The attributes assigned by `Agent.__init__` (agents.py lines 7-15), in
source order.  `np.random.seed` and the construction of `self.randgen` touch
no further attributes of `self`. -/
def agentInitAttrs : List String :=
  ["arms", "n_arms", "arm_dim", "t", "a_hist", "last_pull_i", "randgen"]

/-- `Agent.__init__(arms, random_state)` as called by `CLUB.__init__`: the
second positional argument is CLUB's `context_set` (a matrix), which
therefore lands in the `random_state` parameter.  The returned list is the
set of attributes assigned on `self` when the super-constructor returns. -/
def agentInit (arms : List (List ℝ)) (random_state : List (List ℝ)) : List String :=
  agentInitAttrs

/-- `CLUB.__init__` (CLUB.py lines 19-42): calls
`super().__init__(arms, context_set)` and then immediately evaluates
`range(self.n_contexts)` (line 21).  Neither constructor ever assigns
`n_contexts`, so that attribute read is the first effect after the
super-call. -/
def clubInit (arms context_set : List (List ℝ)) (horizon : ℕ)
    (edge_probability : ℝ) : Except String Unit := do
  let assigned := agentInit arms context_set
  let _ ← getattr assigned "n_contexts"
  Except.ok ()

/-- The methods defined by `LinearEnvironment` (environment.py lines 4-24). -/
def linearEnvironmentMethods : List String := ["round", "reset"]

/-- The methods defined by `LinUCBAgent` and its `Agent` base
(agents.py lines 6-156). -/
def linUCBAgentMethods : List String :=
  ["pull_arm", "update", "reset"]

/-- One round of `Core.epoch` (core.py lines 31-42) as a sequence of method
lookups followed by the round's work: the body calls, in order,
`environment.get_contexts()`, `agent.pull_arms(...)`,
`environment.round_all(...)`, `agent.update_arms(...)`. -/
def epochRound (agentMethods envMethods : List String) : Except String Unit := do
  let _ ← getattr envMethods "get_contexts"
  let _ ← getattr agentMethods "pull_arms"
  let _ ← getattr envMethods "round_all"
  let _ ← getattr agentMethods "update_arms"
  Except.ok ()

/-- `Core.epoch`: `n_rounds` iterations of the round body; an exception in
any round aborts the epoch. -/
def epochExec (agentMethods envMethods : List String) (n_rounds : ℕ) :
    Except String Unit :=
  (List.range n_rounds).foldlM (fun _ _ => epochRound agentMethods envMethods) ()

/-! ## CLUB (CLUB.py)

The hypothesis graph is an undirected `networkx` graph on the `n` context
nodes.  It is modelled by a finite set `E` of ordered pairs (one orientation
per stored edge is enough) read through `SimpleGraph.fromRel`, which
symmetrizes and discards self-loops exactly as an undirected simple graph
does.  `nx.node_connected_component` is the set of nodes reachable from a
node. -/

/-- The undirected simple graph described by an edge-pair set. -/
def graphOf {n : ℕ} (E : Finset (Fin n × Fin n)) : SimpleGraph (Fin n) :=
  SimpleGraph.fromRel (fun a b => (a, b) ∈ E)

instance {n : ℕ} (E : Finset (Fin n × Fin n)) : DecidableRel (graphOf E).Adj :=
  fun a b =>
    decidable_of_iff (a ≠ b ∧ ((a, b) ∈ E ∨ (b, a) ∈ E))
      (SimpleGraph.fromRel_adj (fun a b => (a, b) ∈ E) a b).symm

open Classical in
/-- `nx.node_connected_component(G, i)`: the set of nodes reachable from
`i` in the graph described by `E`. -/
def compF {n : ℕ} (E : Finset (Fin n × Fin n)) (i : Fin n) : Finset (Fin n) :=
  Finset.univ.filter fun j => (graphOf E).Reachable i j

/-- `list(self.G.neighbors(i))`: the current neighbors of `i`. -/
def nbrsList {n : ℕ} (E : Finset (Fin n × Fin n)) (i : Fin n) : List (Fin n) :=
  (Finset.univ.filter fun j => (graphOf E).Adj i j).toList

/-- `self.G.remove_edge(i, j)`: removing an undirected edge erases both
orientations of the pair. -/
def removeEdge {n : ℕ} (E : Finset (Fin n × Fin n)) (i j : Fin n) :
    Finset (Fin n × Fin n) :=
  (E.erase (i, j)).erase (j, i)

/-- `_factT` inside `CLUB._if_split` (CLUB.py lines 89-90):
`sqrt((1 + log(1 + T)) / (1 + T))`. -/
def factT (T : ℝ) : ℝ := Real.sqrt ((1 + Real.log (1 + T)) / (1 + T))

/-- Euclidean norm `np.linalg.norm` of a vector. -/
def l2norm {d : ℕ} (v : Fin d → ℝ) : ℝ := Real.sqrt (∑ i, v i ^ 2)

/-- `CLUB._if_split(theta, N1, N2)` (CLUB.py lines 85-91), with the fixed
constant `alpha = 1` from line 87. -/
def ifSplitTest {d : ℕ} (theta : Fin d → ℝ) (N1 N2 : ℝ) : Prop :=
  l2norm theta > 1 * (factT N1 + factT N2)

/-- One cluster record (`Cluster.__init__`, CLUB.py lines 7-14): membership
plus aggregated statistics, with `M_inv` and `theta` derived from `M`, `b`
at construction. -/
structure ClusterData (n d : ℕ) where
  users : Finset (Fin n)
  M : Matrix (Fin d) (Fin d) ℝ
  b : Fin d → ℝ
  N : ℕ
  M_inv : Matrix (Fin d) (Fin d) ℝ
  theta : Fin d → ℝ

/-- `Cluster(users, M, b, N)`: stores the arguments and computes
`M_inv = inv(M)`, `theta = M_inv @ b`. -/
def mkCluster {n d : ℕ} (users : Finset (Fin n)) (M : Matrix (Fin d) (Fin d) ℝ)
    (b : Fin d → ℝ) (N : ℕ) : ClusterData n d :=
  ⟨users, M, b, N, M⁻¹, M⁻¹.mulVec b⟩

/-- The mutable state of a `CLUB` agent: per-context statistics, the
hypothesis graph, and the cluster dictionary (`clusters` is the lookup
function of the dict, `clusterKeys` its key set). -/
structure CLUBState (n d : ℕ) where
  arms : List (Fin d → ℝ)
  horizon : ℕ
  M : Fin n → Matrix (Fin d) (Fin d) ℝ
  b : Fin n → Fin d → ℝ
  M_inv : Fin n → Matrix (Fin d) (Fin d) ℝ
  theta : Fin n → Fin d → ℝ
  num_pulls : Fin n → ℕ
  E : Finset (Fin n × Fin n)
  clusters : ℕ → ClusterData n d
  clusterKeys : Finset ℕ
  cluster_inds : Fin n → ℕ
  t : ℕ
  a_hist : List ℕ
  last_pull_i : ℕ
  num_clusters : List ℕ

/-- The state described by the body of `CLUB.__init__` (CLUB.py lines
19-42): identity per-context design matrices, zero estimates, the given
initial graph, and a single cluster (key 0) containing every context.
(The constructor itself can never finish, see claim C3; this is the state
its remaining lines describe, with `n_contexts = n` and the sampled
`gnp_random_graph` edge set passed in as `E0`.) -/
def initState {n : ℕ} (d : ℕ) (arms : List (Fin d → ℝ)) (horizon : ℕ)
    (E0 : Finset (Fin n × Fin n)) : CLUBState n d :=
  { arms := arms, horizon := horizon,
    M := fun _ => 1, b := fun _ => 0, M_inv := fun _ => 1, theta := fun _ => 0,
    num_pulls := fun _ => 0, E := E0,
    clusters := fun _ => mkCluster Finset.univ 1 0 0,
    clusterKeys := {0}, cluster_inds := fun _ => 0,
    t := 0, a_hist := [], last_pull_i := 0, num_clusters := [] }

/-- `CLUB._beta(N, t)` (CLUB.py lines 60-61) over the reals. -/
def clubBeta (d N t : ℕ) : ℝ :=
  Real.sqrt (d * Real.log (1 + (N : ℝ) / d) + 4 * Real.log t + Real.log 2) + 1

/-- Row `a` of `(items @ M_inv * items).sum(axis=1)`: the quadratic form
`a^T M_inv a` (without any square root, as in CLUB.py line 58). -/
def qformRow {d : ℕ} (a : Fin d → ℝ) (Mi : Matrix (Fin d) (Fin d) ℝ) : ℝ :=
  ∑ j, (∑ k, a k * Mi k j) * a j

/-- `CLUB._select_item_ucb` (CLUB.py lines 57-58):
`argmax(items . theta + beta(N, t) * (items @ M_inv * items).sum(axis=1))`. -/
def selectItemUcb {d : ℕ} (M_inv : Matrix (Fin d) (Fin d) ℝ) (theta : Fin d → ℝ)
    (items : List (Fin d → ℝ)) (N t : ℕ) : ℕ :=
  argmaxList (items.map fun a => dotv a theta + clubBeta d N t * qformRow a M_inv)

/-- Modelled from the spec's words (claim C2), for refinement comparison
only: arm selection with exploration bonus `beta * sqrt(a^T M_inv a)`. -/
def specSelectItemUcb {d : ℕ} (M_inv : Matrix (Fin d) (Fin d) ℝ)
    (theta : Fin d → ℝ) (items : List (Fin d → ℝ)) (N t : ℕ) : ℕ :=
  argmaxList (items.map fun a =>
    dotv a theta + clubBeta d N t * Real.sqrt (qformRow a M_inv))

/-- `CLUB.pull_arm(context_i)` (CLUB.py lines 44-55): looks up the cluster
the context currently belongs to and selects by UCB with that cluster's
aggregated statistics; returns the updated state and the chosen index. -/
def CLUBState.pull_arm {n d : ℕ} (s : CLUBState n d) (context_i : Fin n) :
    CLUBState n d × ℕ :=
  let cluster := s.clusters (s.cluster_inds context_i)
  let idx := selectItemUcb cluster.M_inv cluster.theta s.arms cluster.N s.t
  ({ s with last_pull_i := idx, a_hist := s.a_hist ++ [idx] }, idx)

/-- `CLUB.update(i, a, y)` (CLUB.py lines 63-78): rank-one update of the
individual statistic of context `i` and of the aggregated statistic of the
cluster it currently belongs to; `_update_inverse` recomputes the inverse
and estimate from scratch. -/
def CLUBState.updateStats {n d : ℕ} (s : CLUBState n d) (i : Fin n)
    (a : Fin d → ℝ) (y : ℝ) : CLUBState n d :=
  let M' := s.M i + outer a a
  let b' := s.b i + y • a
  let c := s.cluster_inds i
  let cl := s.clusters c
  let clM := cl.M + outer a a
  let clb := cl.b + y • a
  let cl' : ClusterData n d :=
    { cl with
      M := clM, b := clb, N := cl.N + 1,
      M_inv := clM⁻¹, theta := clM⁻¹.mulVec clb }
  { s with
    M := Function.update s.M i M',
    b := Function.update s.b i b',
    num_pulls := Function.update s.num_pulls i (s.num_pulls i + 1),
    M_inv := Function.update s.M_inv i M'⁻¹,
    theta := Function.update s.theta i (M'⁻¹.mulVec b'),
    clusters := Function.update s.clusters c cl' }

open Classical in
/-- The guard of the edge-deletion loop (CLUB.py line 101): both endpoints
truthy pull counts and the split test on the difference of the individual
estimates.  It reads only per-context fields, which the loop never
mutates. -/
def cutCond {n d : ℕ} (s : CLUBState n d) (i j : Fin n) : Prop :=
  s.num_pulls i ≠ 0 ∧ s.num_pulls j ≠ 0 ∧
    ifSplitTest (s.theta i - s.theta j) (s.num_pulls i) (s.num_pulls j)

open Classical in
/-- One step of the edge-deletion loop body (`if ...: self.G.remove_edge(i, j)`
with `update_clusters = True`, CLUB.py lines 101-104). -/
def cutStep {n : ℕ} (P : Fin n → Fin n → Prop) (i : Fin n)
    (acc2 : Finset (Fin n × Fin n) × Bool) (j : Fin n) :
    Finset (Fin n × Fin n) × Bool :=
  if P i j then (removeEdge acc2.1 i j, true) else acc2

/-- The inner loop `for j in A` over the snapshot `A` of `i`'s current
neighbors (CLUB.py lines 99-104). -/
def cutOuter {n : ℕ} (P : Fin n → Fin n → Prop)
    (acc : Finset (Fin n × Fin n) × Bool) (i : Fin n) :
    Finset (Fin n × Fin n) × Bool :=
  (nbrsList acc.1 i).foldl (cutStep P i) acc

/-- The edge-deletion phase of `CLUB.update_cluster` (CLUB.py lines
96-104) acting on the edge set: for each context `i` in order, snapshot the
current neighbors of `i`, and remove each edge whose guard holds, setting
the `update_clusters` flag. -/
def cutFold {n : ℕ} (P : Fin n → Fin n → Prop) (E0 : Finset (Fin n × Fin n)) :
    Finset (Fin n × Fin n) × Bool :=
  (List.finRange n).foldl (cutOuter P) (E0, false)

/-- `sum([self.M[k] - np.eye(d) for k in C]) + np.eye(d)` (CLUB.py line
113): aggregated design matrix of a component, counting the regularizer
once. -/
def aggM {n d : ℕ} (s : CLUBState n d) (C : Finset (Fin n)) :
    Matrix (Fin d) (Fin d) ℝ :=
  (∑ k ∈ C, (s.M k - 1)) + 1

/-- `sum([self.b[k] for k in C])`. -/
def aggB {n d : ℕ} (s : CLUBState n d) (C : Finset (Fin n)) : Fin d → ℝ :=
  ∑ k ∈ C, s.b k

/-- `sum([self.num_pulls[k] for k in C])`. -/
def aggN {n d : ℕ} (s : CLUBState n d) (C : Finset (Fin n)) : ℕ :=
  ∑ k ∈ C, s.num_pulls k

/-- `max(self.clusters) + 1`: the fresh key taken for the first new cluster
fragment.  The key set of a CLUB agent is never empty. -/
def freshKey (keys : Finset ℕ) : ℕ := keys.max.unbot' 0 + 1

open Classical in
/-- The `while len(remain_users) > 0` loop of `CLUB.update_cluster`
(CLUB.py lines 118-128): repeatedly pick some remaining user (the source
uses `np.random.choice`; `pick` abstracts that draw), materialize a new
cluster for its connected component under the fresh key `k`, repoint the
component members to `k`, and continue with `k + 1`.  The fuel bounds the
iteration count; `remain.card` steps suffice for any valid `pick`. -/
def splitLoop {n d : ℕ} (pick : Finset (Fin n) → Fin n) :
    ℕ → Finset (Fin n) → ℕ → CLUBState n d → CLUBState n d
  | 0, _, _, s => s
  | fuel + 1, remain, k, s =>
    if remain.Nonempty then
      let j := pick remain
      let C := compF s.E j
      let s1 : CLUBState n d :=
        { s with
          clusters := Function.update s.clusters k
            (mkCluster C (aggM s C) (aggB s C) (aggN s C)),
          clusterKeys := insert k s.clusterKeys,
          cluster_inds := fun u => if u ∈ C then k else s.cluster_inds u }
      splitLoop pick fuel (remain \ C) (k + 1) s1
    else s

open Classical in
/-- The body of the component-reassignment loop of `CLUB.update_cluster`
(CLUB.py lines 108-128) for one context `i`: if `i`'s connected component
is now strictly smaller than its recorded cluster, overwrite that cluster
with the component (recomputing aggregated statistics) and split the
remaining former members into new clusters under fresh keys. -/
def reassignBody {n d : ℕ} (pick : Finset (Fin n) → Fin n) (s : CLUBState n d)
    (i : Fin n) : CLUBState n d :=
  let C := compF s.E i
  let ci := s.cluster_inds i
  if C.card < (s.clusters ci).users.card then
    let remain0 := (s.clusters ci).users
    let s1 : CLUBState n d :=
      { s with
        clusters := Function.update s.clusters ci
          (mkCluster C (aggM s C) (aggB s C) (aggN s C)),
        clusterKeys := insert ci s.clusterKeys }
    let remain := remain0 \ C
    splitLoop pick remain.card remain (freshKey s1.clusterKeys) s1
  else s

/-- The component-reassignment loop over every context index. -/
def reassign {n d : ℕ} (pick : Finset (Fin n) → Fin n) (s : CLUBState n d) :
    CLUBState n d :=
  (List.finRange n).foldl (reassignBody pick) s

/-- `CLUB.update_cluster(t)` (CLUB.py lines 93-130): cut edges, reassign
clusters to connected components if any edge was cut, and record the
cluster count for diagnostics. -/
def updateCluster {n d : ℕ} (pick : Finset (Fin n) → Fin n)
    (s : CLUBState n d) : CLUBState n d :=
  let p := cutFold (cutCond s) s.E
  let s1 : CLUBState n d := { s with E := p.1 }
  let s2 := if p.2 then reassign pick s1 else s1
  { s2 with num_clusters := s2.num_clusters ++ [s2.clusterKeys.card] }

/-- One round of `CLUB.update_arms` (CLUB.py lines 136-141): a batch of
per-context statistic updates (context, pulled arm vector, reward),
followed by the per-round cluster maintenance and the round-counter
increment. -/
def roundStep {n d : ℕ} (pick : Finset (Fin n) → Fin n) (s : CLUBState n d)
    (pulls : List (Fin n × (Fin d → ℝ) × ℝ)) : CLUBState n d :=
  let s1 := pulls.foldl (fun acc p => acc.updateStats p.1 p.2.1 p.2.2) s
  let s2 := updateCluster pick s1
  { s2 with t := s2.t + 1 }

/-- A run of a CLUB agent: a sequence of rounds from a starting state. -/
def runScript {n d : ℕ} (pick : Finset (Fin n) → Fin n) (s : CLUBState n d) :
    List (List (Fin n × (Fin d → ℝ) × ℝ)) → CLUBState n d
  | [] => s
  | r :: rs => runScript pick (roundStep pick s r) rs

/-- The CLUB bookkeeping invariant (claim C1): every context's recorded
cluster key is a live dictionary key, the recorded cluster's membership is
the context's connected component, and reachable contexts share a cluster
key. -/
def ClubInv {n d : ℕ} (s : CLUBState n d) : Prop :=
  (∀ i, s.cluster_inds i ∈ s.clusterKeys) ∧
  (∀ i, (s.clusters (s.cluster_inds i)).users = compF s.E i) ∧
  (∀ i j, (graphOf s.E).Reachable i j → s.cluster_inds i = s.cluster_inds j)

/-- Claim C1's property at one context: the recorded cluster's membership
is the context's connected component, and every member of that component
records the same cluster key. -/
def GoodAt {n d : ℕ} (s : CLUBState n d) (i : Fin n) : Prop :=
  (s.clusters (s.cluster_inds i)).users = compF s.E i ∧
  ∀ v ∈ compF s.E i, s.cluster_inds v = s.cluster_inds i

/-- The same property with components taken in an older (larger) edge set
`Eold`: the bookkeeping still reflects the graph as it was before the
current round's edge cuts. -/
def OldAt {n d : ℕ} (s : CLUBState n d) (Eold : Finset (Fin n × Fin n))
    (i : Fin n) : Prop :=
  (s.clusters (s.cluster_inds i)).users = compF Eold i ∧
  ∀ v ∈ compF Eold i, s.cluster_inds v = s.cluster_inds i

/-- Loop invariant of the component-reassignment phase: every recorded key
is live, and every context is either already consistent with the current
graph or still consistent with the pre-cut graph `Eold`. -/
def PhiInv {n d : ℕ} (s : CLUBState n d) (Eold : Finset (Fin n × Fin n)) :
    Prop :=
  (∀ i, s.cluster_inds i ∈ s.clusterKeys) ∧
  ∀ i, GoodAt s i ∨ OldAt s Eold i

/-- A concrete valid pick function on two contexts, for witnesses. -/
def pick2 : Finset (Fin 2) → Fin 2 :=
  fun s => if h : s.Nonempty then s.min' h else 0

/-- A concrete valid pick function on one context, for witnesses. -/
def pick1 : Finset (Fin 1) → Fin 1 :=
  fun s => if h : s.Nonempty then s.min' h else 0

/-! ## Concrete instances used to settle individual claims -/

/-- The two arms of the spec's concrete LinUCB scenario. -/
def exArms2 : List (Fin 2 → ℝ) := [![1, 0], ![0, 1]]

/-- A LinUCB agent over `exArms2` with `lambda = 1`, `horizon = 1` and zero
norm bounds (all legal constructor arguments: only `lambda > 0` is
checked). -/
def c4s0 : LinUCBAgent 2 := LinUCBAgent.init 2 exArms2 1 1 0 0

/-- A run of `c4s0` in which the first random draw is arm 0 and every
reward is 2. -/
def c4run : ℕ → LinUCBAgent 2 := linIter c4s0 (fun _ => 0) (fun _ => 2)

/-- A one-dimensional LinUCB agent with `lambda = 1`, `horizon = 1`, zero
norm bounds. -/
def c5s0 : LinUCBAgent 1 := LinUCBAgent.init 1 [![1]] 1 1 0 0

/-- A run of `c5s0` (draws 0, rewards 2). -/
def c5run : ℕ → LinUCBAgent 1 := linIter c5s0 (fun _ => 0) (fun _ => 2)

/-- The one-by-one matrix `[[4]]`. -/
def m4 : Matrix (Fin 1) (Fin 1) ℝ := Matrix.of fun _ _ => 4

/-- A cluster over one context with `M = [[4]]`, `b = [-8]`, `N = 3`, hence
`M_inv = [[1/4]]` and `theta = [-2]`. -/
def c2cluster : ClusterData 1 1 :=
  mkCluster {0} m4 (fun _ => (-8 : ℝ)) 3

/-- A CLUB state over one context and the two one-dimensional arms `[1]`
and `[2]`, whose single cluster is `c2cluster`, at round `t = 3`. -/
def c2state : CLUBState 1 1 :=
  { arms := [![1], ![2]], horizon := 10,
    M := fun _ => m4,
    b := fun _ _ => (-8 : ℝ),
    M_inv := fun _ => m4⁻¹,
    theta := fun _ => m4⁻¹.mulVec fun _ => (-8 : ℝ),
    num_pulls := fun _ => 3, E := ∅,
    clusters := fun _ => c2cluster, clusterKeys := {0},
    cluster_inds := fun _ => 0,
    t := 3, a_hist := [], last_pull_i := 0, num_clusters := [] }

/-- A CLUB state over two contexts whose initial hypothesis graph has no
edges (as `gnp_random_graph` can return for any `edge_probability < 1`). -/
def c1s0 : CLUBState 2 1 := initState 1 [![1]] 5 (∅ : Finset (Fin 2 × Fin 2))

/-- `c1s0` after one round with no pulls and the per-round cluster
maintenance. -/
def c1state : CLUBState 2 1 := roundStep pick2 c1s0 []

end

/-! # Theorems -/

/-! ## Generic helper lemmas -/

theorem argmaxList_pair (x y : ℝ) : argmaxList [x, y] = if x < y then 1 else 0 := by
  simp [argmaxList, argmaxAux]

theorem foldl_fixed {α β : Type _} (f : α → β → α) (a : α)
    (h : ∀ b, f a b = a) : ∀ l : List β, l.foldl f a = a := by
  intro l
  induction l with
  | nil => rfl
  | cons b bs ih => simpa [List.foldl, h b] using ih

/-! ## Claim C3: CLUB construction always raises -/

/-- C3: for every choice of constructor arguments, `CLUB.__init__` raises:
it passes `context_set` as the `random_state` argument of
`Agent.__init__`, and the very next line reads `self.n_contexts`, an
attribute that neither constructor ever assigns, so no CLUB agent can be
created. -/
theorem club_init_always_raises (arms context_set : List (List ℝ))
    (horizon : ℕ) (edge_probability : ℝ) :
    clubInit arms context_set horizon edge_probability =
      Except.error "AttributeError: n_contexts" := by
  rfl

/-! ## Claim C9: the simulation driver cannot complete an epoch -/

/-- Supporting theorem for C9: with a `LinUCBAgent` and a
`LinearEnvironment`, `Core.epoch` raises `AttributeError` on its very
first method lookup (`environment.get_contexts`) in every epoch with at
least one round, so `Core.simulation` can never produce the reward and
action histories the claim speaks about. -/
theorem core_epoch_always_raises (n_rounds : ℕ) (h : 1 ≤ n_rounds) :
    epochExec linUCBAgentMethods linearEnvironmentMethods n_rounds =
      Except.error "AttributeError: get_contexts" := by
  obtain ⟨m, rfl⟩ : ∃ m, n_rounds = m + 1 := ⟨n_rounds - 1, by omega⟩
  rw [epochExec, List.range_succ_eq_map]
  rfl

/-- Witness for `core_epoch_always_raises` at one round. -/
theorem core_epoch_always_raises_witness :
    1 ≤ 1 ∧ epochExec linUCBAgentMethods linearEnvironmentMethods 1 =
      Except.error "AttributeError: get_contexts" :=
  ⟨by decide, core_epoch_always_raises 1 (by decide)⟩

/-! ## Claims C4 and C5: LinUCB pull structure and confidence width -/

theorem runStep_preserves_config {d : ℕ} (s : LinUCBAgent d) (r : ℕ) (y : ℝ) :
    (s.runStep r y).lmbd = s.lmbd ∧ (s.runStep r y).horizon = s.horizon ∧
    (s.runStep r y).max_theta_norm = s.max_theta_norm ∧
    (s.runStep r y).max_arm_norm = s.max_arm_norm := by
  cases hf : s.first <;>
    simp [LinUCBAgent.runStep, LinUCBAgent.pull_arm, LinUCBAgent.update,
      LinUCBAgent.estimate, hf]

theorem runStep_first_false {d : ℕ} (s : LinUCBAgent d) (r : ℕ) (y : ℝ) :
    (s.runStep r y).first = false := by
  cases hf : s.first <;>
    simp [LinUCBAgent.runStep, LinUCBAgent.pull_arm, LinUCBAgent.update,
      LinUCBAgent.estimate, hf]

theorem c4run1_Vt : (c4run 1).V_t = Matrix.of ![![(2 : ℝ), 0], ![0, 1]] := by
  ext i j
  fin_cases i <;> fin_cases j <;>
    simp [c4run, linIter, LinUCBAgent.runStep, LinUCBAgent.pull_arm,
      LinUCBAgent.update, c4s0, LinUCBAgent.init, exArms2, outer,
      Matrix.one_apply] <;> norm_num

theorem c4run1_Vt_inv :
    ((c4run 1).V_t)⁻¹ = Matrix.of ![![(1 / 2 : ℝ), 0], ![0, 1]] := by
  rw [c4run1_Vt]
  apply Matrix.inv_eq_right_inv
  ext i j
  fin_cases i <;> fin_cases j <;>
    simp [Matrix.mul_apply, Fin.sum_univ_two, Matrix.one_apply] <;> norm_num

theorem c4run1_b : (c4run 1).b_vect = ![2, 0] := by
  ext i
  fin_cases i <;>
    simp [c4run, linIter, LinUCBAgent.runStep, LinUCBAgent.pull_arm,
      LinUCBAgent.update, c4s0, LinUCBAgent.init, exArms2] <;> norm_num

theorem c4run1_theta : (c4run 1).theta_hat = ![1, 0] := by
  have h : (c4run 1).theta_hat = ((c4run 1).V_t)⁻¹.mulVec (c4run 1).b_vect := rfl
  rw [h, c4run1_Vt_inv, c4run1_b]
  ext i
  fin_cases i <;>
    simp [Matrix.mulVec, Matrix.dotProduct, Fin.sum_univ_two] <;> norm_num

theorem c4run1_beta : (c4run 1).beta_t_fun_linucb = 0 := by
  have h1 : (c4run 1).max_theta_norm = 0 := rfl
  have h2 : (c4run 1).lmbd = 1 := rfl
  have h3 : (c4run 1).horizon = 1 := rfl
  have h4 : (c4run 1).max_arm_norm = 0 := rfl
  rw [LinUCBAgent.beta_t_fun_linucb, h1, h2, h3, h4]
  norm_num

theorem c4run1_scores : (c4run 1).ucbScores = [1, 0] := by
  have harms : (c4run 1).arms = exArms2 := rfl
  rw [LinUCBAgent.ucbScores, harms, c4run1_beta, exArms2]
  simp [c4run1_theta, dotv, Fin.sum_univ_two]

/-- C4 counterexample: a LinUCB run over the two arms `[1,0]`, `[0,1]`
(with `lambda = 1`, `horizon = 1`, zero norm bounds, first random draw 0,
reward 2) pulls arm 0 at round 0 and arm 0 again at round 1: the pull
history after two rounds is `[0, 0]`, not the forced-exploration cycle
`[0, 1]` the claim asserts for the first `d = 2` rounds. -/
theorem linucb_no_forced_cycle_counterexample :
    (c4run 2).a_hist = [0, 0] ∧ (c4run 2).a_hist ≠ [0, 1] := by
  have hfirst : (c4run 1).first = false := runStep_first_false _ _ _
  have hstep : c4run 2 = ((c4run 1).pull_arm 0).update 2 := rfl
  have hhist : (c4run 1).a_hist = [0] := rfl
  have h2 : (c4run 2).a_hist = [0, 0] := by
    rw [hstep, LinUCBAgent.pull_arm, hfirst]
    simp [LinUCBAgent.update, LinUCBAgent.estimate, hhist, c4run1_scores,
      argmaxList_pair]
  exact ⟨h2, by rw [h2]; simp⟩

/-- C4 amended: `LinUCBAgent.pull_arm` performs no `d`-round forced
exploration cycle.  The round-0 pull is the random draw
`int(np.random.uniform(high=n_arms))`, and the pull of every round `k >= 1`
is the argmax of the UCB scores of the state entering round `k`; each round
appends its pull to the action history. -/
theorem linucb_pull_structure {d : ℕ} (arms : List (Fin d → ℝ))
    (horizon : ℕ) (lmbd mtn man : ℝ) (draws : ℕ → ℕ) (rews : ℕ → ℝ) (k : ℕ) :
    (linIter (LinUCBAgent.init d arms horizon lmbd mtn man) draws rews (k + 1)).last_pull_i =
      (if k = 0 then draws 0
        else argmaxList
          (linIter (LinUCBAgent.init d arms horizon lmbd mtn man) draws rews k).ucbScores) ∧
    (linIter (LinUCBAgent.init d arms horizon lmbd mtn man) draws rews (k + 1)).a_hist =
      (linIter (LinUCBAgent.init d arms horizon lmbd mtn man) draws rews k).a_hist ++
        [(linIter (LinUCBAgent.init d arms horizon lmbd mtn man) draws rews (k + 1)).last_pull_i] := by
  cases k with
  | zero =>
    refine ⟨rfl, ?_⟩
    simp [linIter, LinUCBAgent.runStep, LinUCBAgent.pull_arm, LinUCBAgent.update,
      LinUCBAgent.init, LinUCBAgent.estimate]
  | succ m =>
    have hf : (linIter (LinUCBAgent.init d arms horizon lmbd mtn man) draws rews (m + 1)).first
        = false := runStep_first_false _ _ _
    have hpull : (linIter (LinUCBAgent.init d arms horizon lmbd mtn man) draws rews (m + 2)).last_pull_i
        = argmaxList
          (linIter (LinUCBAgent.init d arms horizon lmbd mtn man) draws rews (m + 1)).ucbScores := by
      show ((linIter _ draws rews (m + 1)).runStep (draws (m + 1)) (rews (m + 1))).last_pull_i = _
      rw [LinUCBAgent.runStep, LinUCBAgent.pull_arm, hf]
      simp [LinUCBAgent.update, LinUCBAgent.estimate]
    refine ⟨by rw [hpull]; simp, ?_⟩
    rw [hpull]
    show ((linIter _ draws rews (m + 1)).runStep (draws (m + 1)) (rews (m + 1))).a_hist = _
    rw [LinUCBAgent.runStep, LinUCBAgent.pull_arm, hf]
    simp [LinUCBAgent.update, LinUCBAgent.estimate]

theorem c5run1_Vt : (c5run 1).V_t = Matrix.of ![![(2 : ℝ)]] := by
  ext i j
  fin_cases i <;> fin_cases j <;>
    simp [c5run, linIter, LinUCBAgent.runStep, LinUCBAgent.pull_arm,
      LinUCBAgent.update, c5s0, LinUCBAgent.init, outer, Matrix.one_apply] <;>
    norm_num

theorem c5run1_beta : (c5run 1).beta_t_fun_linucb = 0 := by
  have h1 : (c5run 1).max_theta_norm = 0 := rfl
  have h2 : (c5run 1).lmbd = 1 := rfl
  have h3 : (c5run 1).horizon = 1 := rfl
  have h4 : (c5run 1).max_arm_norm = 0 := rfl
  rw [LinUCBAgent.beta_t_fun_linucb, h1, h2, h3, h4]
  norm_num

/-- C5 counterexample: after one round of the one-dimensional run `c5run`
(a reachable state with `t = 1` and `V = [[2]]`), the width the code uses
is the horizon-based constant 0, while the claimed formula
`max_theta_norm*sqrt(lambda) + sqrt(2*sigma^2*ln(t) + ln(det(V)/lambda^d))`
(with the scenario's `sigma = 0`) evaluates to `sqrt(ln 2) > 0`. -/
theorem linucb_width_counterexample :
    (c5run 1).beta_t_fun_linucb = 0 ∧
    specConfWidth 1 (c5run 1).lmbd (c5run 1).max_theta_norm 0 (c5run 1).t
        (c5run 1).V_t = Real.sqrt (Real.log 2) ∧
    (c5run 1).beta_t_fun_linucb ≠
      specConfWidth 1 (c5run 1).lmbd (c5run 1).max_theta_norm 0 (c5run 1).t
        (c5run 1).V_t := by
  have hbeta := c5run1_beta
  have hl : (c5run 1).lmbd = 1 := rfl
  have hm : (c5run 1).max_theta_norm = 0 := rfl
  have ht : (c5run 1).t = 1 := rfl
  have hdet : (c5run 1).V_t.det = 2 := by
    rw [c5run1_Vt, Matrix.det_fin_one]
    simp
  have hspec : specConfWidth 1 (c5run 1).lmbd (c5run 1).max_theta_norm 0 (c5run 1).t
      (c5run 1).V_t = Real.sqrt (Real.log 2) := by
    rw [specConfWidth, hl, hm, ht, hdet]
    norm_num
  refine ⟨hbeta, hspec, ?_⟩
  rw [hbeta, hspec]
  intro h
  have hpos : 0 < Real.sqrt (Real.log 2) :=
    Real.sqrt_pos.2 (Real.log_pos one_lt_two)
  exact absurd h.symm (ne_of_gt hpos)

/-- C5 amended: the confidence width used in arm selection is
`max_theta_norm*sqrt(lambda) +
 sqrt(2*ln(horizon) + d*ln((d*lambda + horizon*max_arm_norm^2)/(d*lambda)))`,
a function of the constructor configuration alone; it is unchanged by a
round of pull and update, i.e. independent of the current `t` and `V`. -/
theorem linucb_width_horizon_constant {d : ℕ} (s : LinUCBAgent d) (rand : ℕ)
    (reward : ℝ) :
    s.beta_t_fun_linucb =
      s.max_theta_norm * Real.sqrt s.lmbd +
        Real.sqrt (2 * Real.log s.horizon +
          d * Real.log ((d * s.lmbd + s.horizon * s.max_arm_norm ^ 2) / (d * s.lmbd))) ∧
    (s.runStep rand reward).beta_t_fun_linucb = s.beta_t_fun_linucb := by
  refine ⟨rfl, ?_⟩
  obtain ⟨h1, h2, h3, h4⟩ := runStep_preserves_config s rand reward
  rw [LinUCBAgent.beta_t_fun_linucb, LinUCBAgent.beta_t_fun_linucb, h1, h2, h3, h4]

/-! ## Claim C10: cold-start formulas and NaN propagation -/

theorem logF_val_zero : NpFloat.logF (NpFloat.val 0) = NpFloat.ninf := by
  simp [NpFloat.logF]

theorem logF_val_pos (x : ℝ) (hx : 0 < x) :
    NpFloat.logF (NpFloat.val x) = NpFloat.val (Real.log x) := by
  simp [NpFloat.logF, hx]

theorem val_mul_ninf (x : ℝ) (hx : 0 < x) :
    NpFloat.val x * NpFloat.ninf = NpFloat.ninf := by
  show NpFloat.mul _ _ = _
  simp [NpFloat.mul, hx]

theorem ninf_div_val_zero : NpFloat.ninf / NpFloat.val 0 = NpFloat.ninf := by
  show NpFloat.div _ _ = _
  simp [NpFloat.div]

theorem val_div_val (x y : ℝ) (hy : y ≠ 0) :
    NpFloat.val x / NpFloat.val y = NpFloat.val (x / y) := by
  show NpFloat.div _ _ = _
  simp [NpFloat.div, hy]

theorem ucb1_init_scores :
    (UCB1Agent.init 2 1).ucb1Scores = [NpFloat.nan, NpFloat.nan] := by
  have hlog : NpFloat.logF (NpFloat.val ((UCB1Agent.init 2 1).t : ℝ)) = NpFloat.ninf := by
    show NpFloat.logF (NpFloat.val ((0 : ℕ) : ℝ)) = NpFloat.ninf
    rw [Nat.cast_zero, logF_val_zero]
  rw [UCB1Agent.ucb1Scores]
  show List.map _ [0, 1] = _
  rw [List.map_cons, List.map_cons, List.map_nil]
  rw [hlog, val_mul_ninf 2 (by norm_num)]
  show [NpFloat.val 0 + NpFloat.val 1 * (NpFloat.ninf / NpFloat.val 0).sqrtF,
      NpFloat.val 0 + NpFloat.val 1 * (NpFloat.ninf / NpFloat.val 0).sqrtF] = _
  rw [ninf_div_val_zero]
  rfl

/-- C10 counterexample: `UCB1Agent.pull_arm` at `t = 0` has no special case
for the zero round counter or the zero pull counts: every score it computes
is `sqrt(2*log(0)/0) = NaN` (with two arms and `max_reward = 1`), so NaN
does reach the score vector from which the action is chosen. -/
theorem coldstart_counterexample :
    ((UCB1Agent.init 2 1).ucb1Scores.any fun x => x.isNan) = true := by
  rw [ucb1_init_scores]
  rfl

/-- C10 amended: neither `UCB1Agent.pull_arm` nor `CLUB._beta`
special-cases `t = 0` or zero pull counts.  At `t = 0` every UCB1 score is
NaN and `np.argmax` then returns index 0 (its first-NaN rule), so the
chosen action is decided by the NaN contamination; likewise `CLUB._beta(N, 0)`
is NaN for every pull count `N` and arm dimension `d >= 1`. -/
theorem coldstart_no_guard (d N : ℕ) (hd : 1 ≤ d) :
    clubBetaF d N 0 = NpFloat.nan ∧
    (UCB1Agent.init 2 1).ucb1Scores = [NpFloat.nan, NpFloat.nan] ∧
    (UCB1Agent.init 2 1).pullIndex = 0 := by
  refine ⟨?_, ucb1_init_scores, ?_⟩
  · have hd0 : ((d : ℕ) : ℝ) ≠ 0 := Nat.cast_ne_zero.2 (by omega)
    have hpos : (0 : ℝ) < 1 + (N : ℝ) / (d : ℝ) := by positivity
    rw [clubBetaF, Nat.cast_zero, logF_val_zero, val_div_val _ _ hd0]
    rw [show NpFloat.val 1 + NpFloat.val ((N : ℝ) / (d : ℝ)) =
      NpFloat.val (1 + (N : ℝ) / (d : ℝ)) from rfl]
    rw [logF_val_pos _ hpos, val_mul_ninf 4 (by norm_num)]
    rw [logF_val_pos 2 (by norm_num)]
    rfl
  · rw [UCB1Agent.pullIndex, ucb1_init_scores]
    rfl

/-- Witness for `coldstart_no_guard` at `d = 1`, `N = 0`. -/
theorem coldstart_no_guard_witness :
    1 ≤ 1 ∧
    (clubBetaF 1 0 0 = NpFloat.nan ∧
      (UCB1Agent.init 2 1).ucb1Scores = [NpFloat.nan, NpFloat.nan] ∧
      (UCB1Agent.init 2 1).pullIndex = 0) :=
  ⟨by decide, coldstart_no_guard 1 0 (by decide)⟩

/-! ## Claim C2: CLUB arm selection -/

theorem m4_inv : m4⁻¹ = Matrix.of fun _ _ => (1 / 4 : ℝ) := by
  apply Matrix.inv_eq_right_inv
  ext i j
  fin_cases i
  fin_cases j
  simp [m4, Matrix.mul_apply, Fin.sum_univ_one, Matrix.one_apply]

theorem c2_Minv : c2cluster.M_inv = Matrix.of fun _ _ => (1 / 4 : ℝ) := m4_inv

theorem c2_theta : c2cluster.theta = fun _ => (-2 : ℝ) := by
  show m4⁻¹.mulVec (fun _ => (-8 : ℝ)) = _
  rw [m4_inv]
  funext i
  simp [Matrix.mulVec, Matrix.dotProduct, Fin.sum_univ_one]
  norm_num

theorem clubBeta133 :
    clubBeta 1 3 3 = Real.sqrt (Real.log 4 + 4 * Real.log 3 + Real.log 2) + 1 := by
  rw [clubBeta]
  norm_num

theorem log_four_eq : Real.log 4 = 2 * Real.log 2 := by
  rw [show (4 : ℝ) = 2 ^ 2 by norm_num, Real.log_pow]
  push_cast
  ring

theorem c2L_bounds :
    (25 / 9 : ℝ) < Real.log 4 + 4 * Real.log 3 + Real.log 2 ∧
    Real.log 4 + 4 * Real.log 3 + Real.log 2 < 9 := by
  have h2 := Real.log_two_gt_d9
  have h2' := Real.log_two_lt_d9
  have h23 : Real.log 2 ≤ Real.log 3 :=
    (Real.log_le_log_iff (by norm_num) (by norm_num)).2 (by norm_num)
  have h34 : Real.log 3 ≤ Real.log 4 :=
    (Real.log_le_log_iff (by norm_num) (by norm_num)).2 (by norm_num)
  have h4 := log_four_eq
  constructor <;> nlinarith

theorem c2beta_lo : (8 / 3 : ℝ) < clubBeta 1 3 3 := by
  rw [clubBeta133]
  have h : (5 / 3 : ℝ) < Real.sqrt (Real.log 4 + 4 * Real.log 3 + Real.log 2) := by
    rw [show (5 / 3 : ℝ) = 5 / 3 from rfl]
    refine (Real.lt_sqrt (by norm_num)).2 ?_
    have := c2L_bounds.1
    nlinarith
  linarith

theorem c2beta_hi : clubBeta 1 3 3 < 4 := by
  rw [clubBeta133]
  have h : Real.sqrt (Real.log 4 + 4 * Real.log 3 + Real.log 2) < 3 := by
    refine (Real.sqrt_lt' (by norm_num)).2 ?_
    have := c2L_bounds.2
    nlinarith
  linarith

theorem c2_qform_one :
    qformRow (![1] : Fin 1 → ℝ) (Matrix.of fun _ _ => (1 / 4 : ℝ)) = 1 / 4 := by
  simp [qformRow, Fin.sum_univ_one]

theorem c2_qform_two :
    qformRow (![2] : Fin 1 → ℝ) (Matrix.of fun _ _ => (1 / 4 : ℝ)) = 1 := by
  simp [qformRow, Fin.sum_univ_one]
  norm_num

theorem c2_dot_one : dotv (![1] : Fin 1 → ℝ) (fun _ => (-2 : ℝ)) = -2 := by
  simp [dotv, Fin.sum_univ_one]

theorem c2_dot_two : dotv (![2] : Fin 1 → ℝ) (fun _ => (-2 : ℝ)) = -4 := by
  simp [dotv, Fin.sum_univ_one]
  norm_num

theorem c2_code_scores :
    (c2state.arms.map fun a =>
      dotv a c2cluster.theta + clubBeta 1 3 3 * qformRow a c2cluster.M_inv) =
    [-2 + clubBeta 1 3 3 * (1 / 4), -4 + clubBeta 1 3 3 * 1] := by
  show ([![1], ![2]].map fun a =>
      dotv a c2cluster.theta + clubBeta 1 3 3 * qformRow a c2cluster.M_inv) = _
  rw [List.map_cons, List.map_cons, List.map_nil]
  rw [c2_Minv, c2_theta, c2_qform_one, c2_qform_two, c2_dot_one, c2_dot_two]

theorem c2_spec_scores :
    (c2state.arms.map fun a =>
      dotv a c2cluster.theta +
        clubBeta 1 3 3 * Real.sqrt (qformRow a c2cluster.M_inv)) =
    [-2 + clubBeta 1 3 3 * (1 / 2), -4 + clubBeta 1 3 3 * 1] := by
  have hq : Real.sqrt (1 / 4 : ℝ) = 1 / 2 := by
    rw [show (1 / 4 : ℝ) = (1 / 2) ^ 2 by norm_num, Real.sqrt_sq (by norm_num)]
  show ([![1], ![2]].map fun a =>
      dotv a c2cluster.theta +
        clubBeta 1 3 3 * Real.sqrt (qformRow a c2cluster.M_inv)) = _
  rw [List.map_cons, List.map_cons, List.map_nil]
  rw [c2_Minv, c2_theta, c2_qform_one, c2_qform_two, c2_dot_one, c2_dot_two,
    hq, Real.sqrt_one]

/-- C2 counterexample: in the one-context CLUB state `c2state` (cluster
statistics `M = [[4]]`, `theta = [-2]`, `N = 3`, round `t = 3`, arms `[1]`
and `[2]`), `pull_arm` returns arm index 1, while the index maximizing the
claim's score `theta . a + beta(N,t) * sqrt(a^T M^-1 a)` is 0: the code
multiplies `beta` by the quadratic form itself, not by its square root. -/
theorem club_pull_no_sqrt_counterexample :
    (c2state.pull_arm 0).2 = 1 ∧
    specSelectItemUcb (c2state.clusters (c2state.cluster_inds 0)).M_inv
      (c2state.clusters (c2state.cluster_inds 0)).theta c2state.arms
      (c2state.clusters (c2state.cluster_inds 0)).N c2state.t = 0 := by
  constructor
  · show argmaxList (c2state.arms.map fun a =>
      dotv a c2cluster.theta + clubBeta 1 3 3 * qformRow a c2cluster.M_inv) = 1
    rw [c2_code_scores, argmaxList_pair, if_pos (by nlinarith [c2beta_lo])]
  · show argmaxList (c2state.arms.map fun a =>
      dotv a c2cluster.theta +
        clubBeta 1 3 3 * Real.sqrt (qformRow a c2cluster.M_inv)) = 0
    rw [c2_spec_scores, argmaxList_pair, if_neg (by nlinarith [c2beta_hi])]

/-- C2 amended: for every CLUB state and context, `pull_arm` returns the
index maximizing `theta . a + beta(N,t) * (a^T M^-1 a)` — the exploration
bonus multiplies the quadratic form itself (no square root) — where
`(M^-1, theta, N)` are the aggregated statistics of the cluster the context
currently belongs to, and
`beta(N,t) = sqrt(d*ln(1+N/d) + 4*ln(t) + ln 2) + 1` (a NaN in floating
point when `t = 0`, see claim C10); the chosen index is appended to the
action history. -/
theorem club_pull_arm_formula {n d : ℕ} (s : CLUBState n d) (i : Fin n) :
    (s.pull_arm i).2 =
      argmaxList (s.arms.map fun a =>
        dotv a (s.clusters (s.cluster_inds i)).theta +
          clubBeta d (s.clusters (s.cluster_inds i)).N s.t *
            qformRow a (s.clusters (s.cluster_inds i)).M_inv) ∧
    (s.pull_arm i).1.a_hist = s.a_hist ++ [(s.pull_arm i).2] :=
  ⟨rfl, rfl⟩

/-! ## Hypothesis-graph lemmas -/

theorem graphOf_adj {n : ℕ} (E : Finset (Fin n × Fin n)) (a b : Fin n) :
    (graphOf E).Adj a b ↔ a ≠ b ∧ ((a, b) ∈ E ∨ (b, a) ∈ E) :=
  SimpleGraph.fromRel_adj _ a b

theorem graphOf_mono {n : ℕ} {E E' : Finset (Fin n × Fin n)} (h : E' ⊆ E) :
    graphOf E' ≤ graphOf E := by
  intro a b hab
  rw [graphOf_adj] at hab ⊢
  exact ⟨hab.1, hab.2.imp (h ·) (h ·)⟩

theorem removeEdge_subset {n : ℕ} (E : Finset (Fin n × Fin n)) (i j : Fin n) :
    removeEdge E i j ⊆ E :=
  (Finset.erase_subset _ _).trans (Finset.erase_subset _ _)

theorem removeEdge_adj {n : ℕ} (E : Finset (Fin n × Fin n)) (a b x y : Fin n) :
    (graphOf (removeEdge E a b)).Adj x y ↔
      (graphOf E).Adj x y ∧ ¬((x = a ∧ y = b) ∨ (x = b ∧ y = a)) := by
  rw [graphOf_adj, graphOf_adj, removeEdge]
  simp only [Finset.mem_erase, ne_eq, Prod.mk.injEq]
  tauto

theorem mem_nbrsList {n : ℕ} (E : Finset (Fin n × Fin n)) (i j : Fin n) :
    j ∈ nbrsList E i ↔ (graphOf E).Adj i j := by
  simp [nbrsList]

theorem mem_compF {n : ℕ} {E : Finset (Fin n × Fin n)} {i j : Fin n} :
    j ∈ compF E i ↔ (graphOf E).Reachable i j := by
  simp [compF]

theorem compF_self {n : ℕ} (E : Finset (Fin n × Fin n)) (i : Fin n) :
    i ∈ compF E i :=
  mem_compF.2 (SimpleGraph.Reachable.refl i)

theorem compF_eq_of_mem {n : ℕ} {E : Finset (Fin n × Fin n)} {i j : Fin n}
    (hj : j ∈ compF E i) : compF E j = compF E i := by
  rw [mem_compF] at hj
  ext x
  rw [mem_compF, mem_compF]
  exact ⟨fun hx => hj.trans hx, fun hx => hj.symm.trans hx⟩

theorem compF_mono {n : ℕ} {E E' : Finset (Fin n × Fin n)} (h : E' ⊆ E)
    (i : Fin n) : compF E' i ⊆ compF E i := fun x hx =>
  mem_compF.2 ((mem_compF.1 hx).mono (graphOf_mono h))

/-! ## Claim C6: the edge-deletion phase -/

theorem cutCond_symm {n d : ℕ} (s : CLUBState n d) (i j : Fin n) :
    cutCond s i j ↔ cutCond s j i := by
  have hnorm : l2norm (s.theta i - s.theta j) = l2norm (s.theta j - s.theta i) := by
    unfold l2norm
    congr 1
    apply Finset.sum_congr rfl
    intro x _
    simp only [Pi.sub_apply]
    ring
  unfold cutCond ifSplitTest
  rw [hnorm]
  constructor
  · rintro ⟨h1, h2, h3⟩
    exact ⟨h2, h1, by linarith⟩
  · rintro ⟨h1, h2, h3⟩
    exact ⟨h2, h1, by linarith⟩

/-- After the inner fold over a neighbor list `js` of `i`, an edge is
present iff it was present and is not a `P`-cut `(i, j)` edge for some
`j` in `js`. -/
theorem cutInner_adj {n : ℕ} (P : Fin n → Fin n → Prop) (i : Fin n)
    (js : List (Fin n)) :
    ∀ (acc : Finset (Fin n × Fin n) × Bool) (x y : Fin n),
      (graphOf ((js.foldl (cutStep P i) acc).1)).Adj x y ↔
      (graphOf acc.1).Adj x y ∧
        ¬ ∃ j ∈ js, P i j ∧ ((x = i ∧ y = j) ∨ (x = j ∧ y = i)) := by
  induction js with
  | nil => intro acc x y; simp
  | cons j0 js ih =>
    intro acc x y
    rw [List.foldl_cons]
    by_cases hp : P i j0
    · rw [show cutStep P i acc j0 = (removeEdge acc.1 i j0, true) by
        rw [cutStep, if_pos hp]]
      rw [ih ((removeEdge acc.1 i j0, true)) x y]
      rw [show (removeEdge acc.1 i j0, true).1 = removeEdge acc.1 i j0 from rfl]
      rw [removeEdge_adj]
      constructor
      · rintro ⟨⟨hadj, hne⟩, hnex⟩
        refine ⟨hadj, ?_⟩
        rintro ⟨j, hj, hPj, hmatch⟩
        rcases List.mem_cons.1 hj with rfl | hj
        · exact hne hmatch
        · exact hnex ⟨j, hj, hPj, hmatch⟩
      · rintro ⟨hadj, hnex⟩
        refine ⟨⟨hadj, ?_⟩, ?_⟩
        · rintro hmatch
          exact hnex ⟨j0, List.mem_cons_self _ _, hp, hmatch⟩
        · rintro ⟨j, hj, hPj, hmatch⟩
          exact hnex ⟨j, List.mem_cons_of_mem _ hj, hPj, hmatch⟩
    · rw [show cutStep P i acc j0 = acc by rw [cutStep, if_neg hp]]
      rw [ih acc x y]
      constructor
      · rintro ⟨hadj, hnex⟩
        refine ⟨hadj, ?_⟩
        rintro ⟨j, hj, hPj, hmatch⟩
        rcases List.mem_cons.1 hj with rfl | hj
        · exact hp hPj
        · exact hnex ⟨j, hj, hPj, hmatch⟩
      · rintro ⟨hadj, hnex⟩
        refine ⟨hadj, ?_⟩
        rintro ⟨j, hj, hPj, hmatch⟩
        exact hnex ⟨j, List.mem_cons_of_mem _ hj, hPj, hmatch⟩

/-- One outer iteration (the inner loop over all current neighbors of `i`)
removes exactly the `P`-edges incident to `i`. -/
theorem cutOuter_adj {n : ℕ} (P : Fin n → Fin n → Prop)
    (hP : ∀ a b, P a b ↔ P b a) (acc : Finset (Fin n × Fin n) × Bool)
    (i x y : Fin n) :
    (graphOf (cutOuter P acc i).1).Adj x y ↔
      (graphOf acc.1).Adj x y ∧ ¬ (P x y ∧ (x = i ∨ y = i)) := by
  rw [cutOuter, cutInner_adj]
  constructor
  · rintro ⟨hadj, hnex⟩
    refine ⟨hadj, ?_⟩
    rintro ⟨hpxy, hcase⟩
    rcases hcase with rfl | rfl
    · exact hnex ⟨y, (mem_nbrsList _ _ _).2 hadj, hpxy, Or.inl ⟨rfl, rfl⟩⟩
    · exact hnex ⟨x, (mem_nbrsList _ _ _).2 hadj.symm, (hP x y).1 hpxy,
        Or.inr ⟨rfl, rfl⟩⟩
  · rintro ⟨hadj, hn⟩
    refine ⟨hadj, ?_⟩
    rintro ⟨j, _, hPij, hmatch⟩
    rcases hmatch with ⟨rfl, rfl⟩ | ⟨rfl, rfl⟩
    · exact hn ⟨hPij, Or.inl rfl⟩
    · exact hn ⟨(hP x y).2 hPij, Or.inr rfl⟩

theorem cutFold_adj_aux {n : ℕ} (P : Fin n → Fin n → Prop)
    (hP : ∀ a b, P a b ↔ P b a) (l : List (Fin n)) :
    ∀ (acc : Finset (Fin n × Fin n) × Bool) (x y : Fin n),
      (graphOf ((l.foldl (cutOuter P) acc).1)).Adj x y ↔
        (graphOf acc.1).Adj x y ∧ ¬ (P x y ∧ (x ∈ l ∨ y ∈ l)) := by
  induction l with
  | nil => intro acc x y; simp
  | cons i l ih =>
    intro acc x y
    rw [List.foldl_cons, ih, cutOuter_adj P hP]
    constructor
    · rintro ⟨⟨hadj, h1⟩, h2⟩
      refine ⟨hadj, ?_⟩
      rintro ⟨hp, hcase⟩
      rcases hcase with hx | hy
      · rcases List.mem_cons.1 hx with rfl | hx
        · exact h1 ⟨hp, Or.inl rfl⟩
        · exact h2 ⟨hp, Or.inl hx⟩
      · rcases List.mem_cons.1 hy with rfl | hy
        · exact h1 ⟨hp, Or.inr rfl⟩
        · exact h2 ⟨hp, Or.inr hy⟩
    · rintro ⟨hadj, hn⟩
      refine ⟨⟨hadj, ?_⟩, ?_⟩
      · rintro ⟨hp, hcase⟩
        refine hn ⟨hp, hcase.imp (fun h => ?_) (fun h => ?_)⟩
        · subst h; exact List.mem_cons_self _ _
        · subst h; exact List.mem_cons_self _ _
      · rintro ⟨hp, hcase⟩
        exact hn ⟨hp, hcase.imp (List.mem_cons_of_mem _) (List.mem_cons_of_mem _)⟩

/-- The edge-deletion phase removes exactly the edges whose guard holds. -/
theorem cutFold_adj {n : ℕ} (P : Fin n → Fin n → Prop)
    (hP : ∀ a b, P a b ↔ P b a) (E0 : Finset (Fin n × Fin n)) (x y : Fin n) :
    (graphOf (cutFold P E0).1).Adj x y ↔ (graphOf E0).Adj x y ∧ ¬ P x y := by
  rw [cutFold, cutFold_adj_aux P hP]
  show (graphOf (E0, false).1).Adj x y ∧ _ ↔ _
  have hx : x ∈ List.finRange n := List.mem_finRange x
  constructor
  · rintro ⟨hadj, hn⟩
    exact ⟨hadj, fun hp => hn ⟨hp, Or.inl hx⟩⟩
  · rintro ⟨hadj, hn⟩
    exact ⟨hadj, fun hp => hn hp.1⟩

theorem cutStep_fst_subset {n : ℕ} (P : Fin n → Fin n → Prop) (i : Fin n)
    (acc : Finset (Fin n × Fin n) × Bool) (j : Fin n) :
    (cutStep P i acc j).1 ⊆ acc.1 := by
  rw [cutStep]
  by_cases hp : P i j
  · rw [if_pos hp]
    exact removeEdge_subset _ _ _
  · rw [if_neg hp]

theorem cutInner_fst_subset {n : ℕ} (P : Fin n → Fin n → Prop) (i : Fin n)
    (js : List (Fin n)) :
    ∀ acc : Finset (Fin n × Fin n) × Bool,
      (js.foldl (cutStep P i) acc).1 ⊆ acc.1 := by
  induction js with
  | nil => intro acc; exact subset_rfl
  | cons j0 js ih =>
    intro acc
    rw [List.foldl_cons]
    exact (ih (cutStep P i acc j0)).trans (cutStep_fst_subset P i acc j0)

theorem cutFold_fst_subset_aux {n : ℕ} (P : Fin n → Fin n → Prop)
    (l : List (Fin n)) :
    ∀ acc : Finset (Fin n × Fin n) × Bool,
      (l.foldl (cutOuter P) acc).1 ⊆ acc.1 := by
  induction l with
  | nil => intro acc; exact subset_rfl
  | cons i l ih =>
    intro acc
    rw [List.foldl_cons]
    exact (ih (cutOuter P acc i)).trans (cutInner_fst_subset P i _ acc)

theorem cutFold_fst_subset {n : ℕ} (P : Fin n → Fin n → Prop)
    (E0 : Finset (Fin n × Fin n)) : (cutFold P E0).1 ⊆ E0 :=
  cutFold_fst_subset_aux P (List.finRange n) (E0, false)

theorem cutStep_flag_mono {n : ℕ} (P : Fin n → Fin n → Prop) (i : Fin n)
    (acc : Finset (Fin n × Fin n) × Bool) (j : Fin n) (h : acc.2 = true) :
    (cutStep P i acc j).2 = true := by
  rw [cutStep]
  by_cases hp : P i j
  · rw [if_pos hp]
  · rw [if_neg hp]; exact h

theorem cutStep_of_flag_false {n : ℕ} (P : Fin n → Fin n → Prop) (i : Fin n)
    (acc : Finset (Fin n × Fin n) × Bool) (j : Fin n)
    (h : (cutStep P i acc j).2 = false) : cutStep P i acc j = acc := by
  by_cases hp : P i j
  · rw [cutStep, if_pos hp] at h
    exact absurd h (by simp)
  · rw [cutStep, if_neg hp]

theorem cutInner_flag_mono {n : ℕ} (P : Fin n → Fin n → Prop) (i : Fin n)
    (js : List (Fin n)) :
    ∀ acc : Finset (Fin n × Fin n) × Bool, acc.2 = true →
      (js.foldl (cutStep P i) acc).2 = true := by
  induction js with
  | nil => intro acc h; exact h
  | cons j0 js ih =>
    intro acc h
    rw [List.foldl_cons]
    exact ih _ (cutStep_flag_mono P i acc j0 h)

theorem cutInner_of_flag_false {n : ℕ} (P : Fin n → Fin n → Prop) (i : Fin n)
    (js : List (Fin n)) :
    ∀ acc : Finset (Fin n × Fin n) × Bool,
      (js.foldl (cutStep P i) acc).2 = false →
      js.foldl (cutStep P i) acc = acc := by
  induction js with
  | nil => intro acc _; rfl
  | cons j0 js ih =>
    intro acc h
    rw [List.foldl_cons] at h ⊢
    have hstep : (cutStep P i acc j0).2 = false := by
      by_contra hff
      have : (cutStep P i acc j0).2 = true := by
        cases hv : (cutStep P i acc j0).2
        · exact absurd hv hff
        · rfl
      rw [cutInner_flag_mono P i js _ this] at h
      exact absurd h (by simp)
    rw [cutStep_of_flag_false P i acc j0 hstep] at h ⊢
    exact ih acc h

theorem cutOuter_flag_mono {n : ℕ} (P : Fin n → Fin n → Prop)
    (acc : Finset (Fin n × Fin n) × Bool) (i : Fin n) (h : acc.2 = true) :
    (cutOuter P acc i).2 = true :=
  cutInner_flag_mono P i _ acc h

theorem cutFold_flag_mono_aux {n : ℕ} (P : Fin n → Fin n → Prop)
    (l : List (Fin n)) :
    ∀ acc : Finset (Fin n × Fin n) × Bool, acc.2 = true →
      (l.foldl (cutOuter P) acc).2 = true := by
  induction l with
  | nil => intro acc h; exact h
  | cons i l ih =>
    intro acc h
    rw [List.foldl_cons]
    exact ih _ (cutOuter_flag_mono P acc i h)

theorem cutFold_of_flag_false_aux {n : ℕ} (P : Fin n → Fin n → Prop)
    (l : List (Fin n)) :
    ∀ acc : Finset (Fin n × Fin n) × Bool,
      (l.foldl (cutOuter P) acc).2 = false →
      l.foldl (cutOuter P) acc = acc := by
  induction l with
  | nil => intro acc _; rfl
  | cons i l ih =>
    intro acc h
    rw [List.foldl_cons] at h ⊢
    have hstep : (cutOuter P acc i).2 = false := by
      by_contra hff
      have : (cutOuter P acc i).2 = true := by
        cases hv : (cutOuter P acc i).2
        · exact absurd hv hff
        · rfl
      rw [cutFold_flag_mono_aux P l _ this] at h
      exact absurd h (by simp)
    have houter : cutOuter P acc i = acc :=
      cutInner_of_flag_false P i _ acc hstep
    rw [houter] at h ⊢
    exact ih acc h

theorem cutFold_of_flag_false {n : ℕ} (P : Fin n → Fin n → Prop)
    (E0 : Finset (Fin n × Fin n)) (h : (cutFold P E0).2 = false) :
    (cutFold P E0).1 = E0 := by
  rw [cutFold] at h ⊢
  rw [cutFold_of_flag_false_aux P _ _ h]

/-! ## Edge-set bookkeeping through a round -/

theorem splitLoop_E {n d : ℕ} (pick : Finset (Fin n) → Fin n) :
    ∀ (fuel : ℕ) (remain : Finset (Fin n)) (k : ℕ) (s : CLUBState n d),
      (splitLoop pick fuel remain k s).E = s.E := by
  intro fuel
  induction fuel with
  | zero => intro remain k s; rfl
  | succ fuel ih =>
    intro remain k s
    rw [splitLoop]
    by_cases h : remain.Nonempty
    · rw [if_pos h, ih]
    · rw [if_neg h]

theorem reassignBody_E {n d : ℕ} (pick : Finset (Fin n) → Fin n)
    (s : CLUBState n d) (i : Fin n) : (reassignBody pick s i).E = s.E := by
  rw [reassignBody]
  by_cases h : (compF s.E i).card < (s.clusters (s.cluster_inds i)).users.card
  · rw [if_pos h, splitLoop_E]
  · rw [if_neg h]

theorem reassign_E_aux {n d : ℕ} (pick : Finset (Fin n) → Fin n)
    (l : List (Fin n)) :
    ∀ s : CLUBState n d, (l.foldl (reassignBody pick) s).E = s.E := by
  induction l with
  | nil => intro s; rfl
  | cons i l ih =>
    intro s
    rw [List.foldl_cons, ih, reassignBody_E]

theorem reassign_E {n d : ℕ} (pick : Finset (Fin n) → Fin n)
    (s : CLUBState n d) : (reassign pick s).E = s.E :=
  reassign_E_aux pick (List.finRange n) s

theorem updateCluster_E {n d : ℕ} (pick : Finset (Fin n) → Fin n)
    (s : CLUBState n d) :
    (updateCluster pick s).E = (cutFold (cutCond s) s.E).1 := by
  rw [updateCluster]
  by_cases h : (cutFold (cutCond s) s.E).2
  · rw [if_pos h, reassign_E]
  · rw [if_neg h]

theorem updateStats_E {n d : ℕ} (s : CLUBState n d) (i : Fin n)
    (a : Fin d → ℝ) (y : ℝ) : (s.updateStats i a y).E = s.E := rfl

theorem roundStep_stats_E {n d : ℕ} (pulls : List (Fin n × (Fin d → ℝ) × ℝ)) :
    ∀ s : CLUBState n d,
      (pulls.foldl (fun acc p => acc.updateStats p.1 p.2.1 p.2.2) s).E = s.E := by
  induction pulls with
  | nil => intro s; rfl
  | cons p ps ih =>
    intro s
    rw [List.foldl_cons, ih, updateStats_E]

/-! ## Claim C6: the edge-cut criterion -/

/-- C6: after the per-round cluster maintenance, an edge `(i, j)` is
present in the hypothesis graph iff it was present before and the cut
criterion did not hold: the edge is cut exactly when both endpoints have a
nonzero pull count and
`norm(theta_i - theta_j) > alpha * (f(N_i) + f(N_j))` with `alpha = 1` and
`f(T) = sqrt((1 + ln(1+T))/(1+T))`; an endpoint with zero pulls blocks the
cut. -/
theorem club_cut_iff {n d : ℕ} (pick : Finset (Fin n) → Fin n)
    (s : CLUBState n d) (i j : Fin n) :
    (graphOf (updateCluster pick s).E).Adj i j ↔
      (graphOf s.E).Adj i j ∧
        ¬ (s.num_pulls i ≠ 0 ∧ s.num_pulls j ≠ 0 ∧
            l2norm (s.theta i - s.theta j) >
              1 * (factT (s.num_pulls i) + factT (s.num_pulls j))) := by
  rw [updateCluster_E, cutFold_adj _ (cutCond_symm s)]
  exact Iff.rfl

/-! ## Claim C7: edge-cut monotonicity -/

theorem roundStep_adj_mono {n d : ℕ} (pick : Finset (Fin n) → Fin n)
    (s : CLUBState n d) (pulls : List (Fin n × (Fin d → ℝ) × ℝ)) (x y : Fin n)
    (h : (graphOf (roundStep pick s pulls).E).Adj x y) :
    (graphOf s.E).Adj x y := by
  have h' : (graphOf (updateCluster pick
      (pulls.foldl (fun acc p => acc.updateStats p.1 p.2.1 p.2.2) s)).E).Adj x y := h
  rw [updateCluster_E] at h'
  have hsub := cutFold_fst_subset
    (cutCond (pulls.foldl (fun acc p => acc.updateStats p.1 p.2.1 p.2.2) s))
    (pulls.foldl (fun acc p => acc.updateStats p.1 p.2.1 p.2.2) s).E
  have h2 := graphOf_mono hsub h'
  rw [roundStep_stats_E] at h2
  exact h2

theorem runScript_append {n d : ℕ} (pick : Finset (Fin n) → Fin n)
    (s : CLUBState n d) (l1 l2 : List (List (Fin n × (Fin d → ℝ) × ℝ))) :
    runScript pick s (l1 ++ l2) = runScript pick (runScript pick s l1) l2 := by
  induction l1 generalizing s with
  | nil => rfl
  | cons r rs ih =>
    rw [List.cons_append, runScript, runScript, ih]

theorem runScript_adj_mono {n d : ℕ} (pick : Finset (Fin n) → Fin n)
    (script : List (List (Fin n × (Fin d → ℝ) × ℝ))) :
    ∀ (s : CLUBState n d) (x y : Fin n),
      (graphOf (runScript pick s script).E).Adj x y →
      (graphOf s.E).Adj x y := by
  induction script with
  | nil => intro s x y h; exact h
  | cons r rs ih =>
    intro s x y h
    rw [runScript] at h
    exact roundStep_adj_mono pick s r x y (ih _ x y h)

/-- C7: the hypothesis graph's edge set is non-increasing over rounds: if
an edge `(i, j)` is absent after running `script1`, it is still absent
after running any continuation `script2` of the run, for every run length
and every pick sequence (edges are never re-added). -/
theorem club_edge_monotone {n d : ℕ} (pick : Finset (Fin n) → Fin n)
    (s0 : CLUBState n d) (script1 script2 : List (List (Fin n × (Fin d → ℝ) × ℝ)))
    (i j : Fin n)
    (habs : ¬ (graphOf (runScript pick s0 script1).E).Adj i j) :
    ¬ (graphOf (runScript pick s0 (script1 ++ script2)).E).Adj i j := by
  rw [runScript_append]
  intro h
  exact habs (runScript_adj_mono pick script2 _ i j h)

/-- Witness for `club_edge_monotone`: two contexts, no initial edge, one
further empty round. -/
theorem club_edge_monotone_witness :
    (¬ (graphOf (runScript pick2 c1s0 []).E).Adj 0 1) ∧
    ¬ (graphOf (runScript pick2 c1s0 ([] ++ [[]])).E).Adj 0 1 := by
  have habs : ¬ (graphOf (runScript pick2 c1s0 []).E).Adj 0 1 := by
    rw [runScript]
    rw [graphOf_adj]
    rintro ⟨-, h | h⟩ <;> exact absurd h (Finset.not_mem_empty _)
  exact ⟨habs, club_edge_monotone pick2 c1s0 [] [[]] 0 1 habs⟩

/-! ## Claim C1: clusters versus connected components -/

theorem graphOf_empty {n : ℕ} :
    graphOf (∅ : Finset (Fin n × Fin n)) = ⊥ := by
  ext a b
  rw [graphOf_adj]
  simp

theorem nbrsList_empty {n : ℕ} (i : Fin n) :
    nbrsList (∅ : Finset (Fin n × Fin n)) i = [] := by
  have h : (Finset.univ.filter fun j =>
      (graphOf (∅ : Finset (Fin n × Fin n))).Adj i j) = ∅ := by
    apply Finset.filter_eq_empty_iff.2
    intro j _
    rw [graphOf_adj]
    rintro ⟨-, h | h⟩ <;> exact absurd h (Finset.not_mem_empty _)
  rw [nbrsList, h, Finset.toList_empty]

theorem cutOuter_empty {n : ℕ} (P : Fin n → Fin n → Prop) (flag : Bool)
    (i : Fin n) :
    cutOuter P ((∅ : Finset (Fin n × Fin n)), flag) i = (∅, flag) := by
  show (nbrsList (∅ : Finset (Fin n × Fin n)) i).foldl (cutStep P i) (∅, flag)
    = (∅, flag)
  rw [nbrsList_empty]
  rfl

theorem cutFold_empty {n : ℕ} (P : Fin n → Fin n → Prop) :
    cutFold P (∅ : Finset (Fin n × Fin n)) = (∅, false) := by
  rw [cutFold]
  exact foldl_fixed _ _ (cutOuter_empty P false) _

theorem updateCluster_empty {n d : ℕ} (pick : Finset (Fin n) → Fin n)
    (s : CLUBState n d) (hE : s.E = ∅) :
    updateCluster pick s =
      { s with num_clusters := s.num_clusters ++ [s.clusterKeys.card] } := by
  have h1 : cutFold (cutCond s) s.E = ((∅ : Finset (Fin n × Fin n)), false) := by
    rw [hE]
    exact cutFold_empty _
  have hs : ({ s with E := (∅ : Finset (Fin n × Fin n)) } : CLUBState n d) = s := by
    rw [← hE]
  simp only [updateCluster, h1]
  rw [hs]
  simp

/-- C1 counterexample: a CLUB agent over two contexts whose initial
hypothesis graph has no edges (possible whenever `edge_probability < 1`)
keeps its single all-context cluster after the round's cluster
maintenance — `update_cluster` only reassigns clusters when an edge was cut
in that round — so `cluster_inds[0]`'s membership `{0, 1}` differs from the
connected component `{0}` of context 0. -/
theorem club_component_counterexample :
    ¬ ((c1state.clusters (c1state.cluster_inds 0)).users = compF c1state.E 0) := by
  intro h
  have h' : (c1s0.clusters (c1s0.cluster_inds 0)).users = compF c1s0.E 0 := by
    have huc : updateCluster pick2 c1s0 =
        { c1s0 with num_clusters := c1s0.num_clusters ++ [c1s0.clusterKeys.card] } :=
      updateCluster_empty pick2 c1s0 rfl
    have hc1 : c1state = { (updateCluster pick2 c1s0) with
        t := (updateCluster pick2 c1s0).t + 1 } := rfl
    rw [hc1, huc] at h
    exact h
  have hm : (1 : Fin 2) ∈ (c1s0.clusters (c1s0.cluster_inds 0)).users :=
    Finset.mem_univ 1
  rw [h'] at hm
  have hr : (graphOf (∅ : Finset (Fin 2 × Fin 2))).Reachable 0 1 :=
    mem_compF.1 hm
  rw [graphOf_empty] at hr
  exact absurd (SimpleGraph.reachable_bot.1 hr) (by decide)

theorem lt_freshKey {keys : Finset ℕ} {x : ℕ} (hx : x ∈ keys) :
    x < freshKey keys := by
  rw [freshKey]
  have hle := Finset.le_max hx
  cases hmax : keys.max with
  | bot => rw [hmax] at hle; exact absurd hle (by simp)
  | coe m =>
    rw [hmax] at hle
    have hxm : x ≤ m := by exact_mod_cast hle
    rw [WithBot.unbot'_coe]
    omega

theorem updateStats_users {n d : ℕ} (s : CLUBState n d) (i : Fin n)
    (a : Fin d → ℝ) (y : ℝ) (key : ℕ) :
    ((s.updateStats i a y).clusters key).users = (s.clusters key).users := by
  show (Function.update s.clusters (s.cluster_inds i)
    { s.clusters (s.cluster_inds i) with
      M := (s.clusters (s.cluster_inds i)).M + outer a a,
      b := (s.clusters (s.cluster_inds i)).b + y • a,
      N := (s.clusters (s.cluster_inds i)).N + 1,
      M_inv := ((s.clusters (s.cluster_inds i)).M + outer a a)⁻¹,
      theta := ((s.clusters (s.cluster_inds i)).M + outer a a)⁻¹.mulVec
        ((s.clusters (s.cluster_inds i)).b + y • a) } key).users = _
  rw [Function.update_apply]
  by_cases hk : key = s.cluster_inds i
  · rw [if_pos hk, hk]
  · rw [if_neg hk]

theorem updateStats_inv {n d : ℕ} (s : CLUBState n d) (i : Fin n)
    (a : Fin d → ℝ) (y : ℝ) (h : ClubInv s) :
    ClubInv (s.updateStats i a y) := by
  obtain ⟨h1, h2, h3⟩ := h
  refine ⟨fun j => h1 j, fun j => ?_, fun j k hr => h3 j k hr⟩
  show ((s.updateStats i a y).clusters (s.cluster_inds j)).users = compF s.E j
  rw [updateStats_users]
  exact h2 j

/-- Specification of the `while remain_users` loop: with a valid pick and
enough fuel, it restores `GoodAt` on the whole old component `D`, preserves
`GoodAt` and `OldAt` outside `D`, and keeps every recorded key live. -/
theorem splitLoop_spec {n d : ℕ} (pick : Finset (Fin n) → Fin n)
    (hpick : ∀ u : Finset (Fin n), u.Nonempty → pick u ∈ u)
    (Eold : Finset (Fin n × Fin n)) (D : Finset (Fin n))
    (hD : ∀ v ∈ D, compF Eold v = D) :
    ∀ (fuel : ℕ) (remain : Finset (Fin n)) (k : ℕ) (s : CLUBState n d),
      s.E ⊆ Eold →
      (∀ v ∈ D, compF s.E v ⊆ D) →
      remain.card ≤ fuel →
      remain ⊆ D →
      (∀ v ∈ remain, compF s.E v ⊆ remain) →
      (∀ v ∈ D \ remain, GoodAt s v) →
      (∀ v, s.cluster_inds v ∈ s.clusterKeys) →
      (∀ key ∈ s.clusterKeys, key < k) →
      (∀ v ∈ D, GoodAt (splitLoop pick fuel remain k s) v) ∧
      (∀ w, w ∉ D → GoodAt s w → GoodAt (splitLoop pick fuel remain k s) w) ∧
      (∀ w, w ∉ D → OldAt s Eold w →
        OldAt (splitLoop pick fuel remain k s) Eold w) ∧
      (∀ v, (splitLoop pick fuel remain k s).cluster_inds v ∈
        (splitLoop pick fuel remain k s).clusterKeys) := by
  intro fuel
  induction fuel with
  | zero =>
    intro remain k s hsub hDc hcard hremD hclosed hgood hkeys hfresh
    have hrem : remain = ∅ := Finset.card_eq_zero.1 (Nat.le_zero.1 hcard)
    subst hrem
    refine ⟨?_, fun w _ hg => hg, fun w _ ho => ho, hkeys⟩
    intro v hv
    exact hgood v (by simpa using hv)
  | succ fuel ih =>
    intro remain k s hsub hDc hcard hremD hclosed hgood hkeys hfresh
    by_cases hne : remain.Nonempty
    · simp only [splitLoop]
      rw [if_pos hne]
      set j := pick remain with hj_def
      have hjrem : j ∈ remain := hpick remain hne
      set C := compF s.E j with hC_def
      have hCrem : C ⊆ remain := hclosed j hjrem
      have hjC : j ∈ C := compF_self _ _
      have hCD : C ⊆ D := hCrem.trans hremD
      set s1 : CLUBState n d := { s with
        clusters := Function.update s.clusters k
          (mkCluster C (aggM s C) (aggB s C) (aggN s C)),
        clusterKeys := insert k s.clusterKeys,
        cluster_inds := fun u => if u ∈ C then k else s.cluster_inds u }
        with hs1_def
      have hinds1 : ∀ v, s1.cluster_inds v =
          if v ∈ C then k else s.cluster_inds v := fun v => rfl
      have husers1 : ∀ key, (s1.clusters key).users =
          if key = k then C else (s.clusters key).users := by
        intro key
        show (Function.update s.clusters k
          (mkCluster C (aggM s C) (aggB s C) (aggN s C)) key).users = _
        rw [Function.update_apply]
        by_cases hk : key = k
        · rw [if_pos hk, if_pos hk]
          rfl
        · rw [if_neg hk, if_neg hk]
      have hindsk_ne : ∀ v, s.cluster_inds v ≠ k :=
        fun v hv => absurd (hv ▸ hfresh _ (hkeys v)) (lt_irrefl k)
      have hsub1 : s1.E ⊆ Eold := hsub
      have hDc1 : ∀ v ∈ D, compF s1.E v ⊆ D := hDc
      have hcard1 : (remain \ C).card ≤ fuel := by
        have h1 : (remain \ C).card = remain.card - C.card :=
          Finset.card_sdiff hCrem
        have h2 : 1 ≤ C.card := Finset.card_pos.2 ⟨j, hjC⟩
        omega
      have hremD1 : remain \ C ⊆ D := Finset.sdiff_subset.trans hremD
      have hclosed1 : ∀ v ∈ remain \ C, compF s1.E v ⊆ remain \ C := by
        intro v hv w hw
        have hvrem : v ∈ remain := (Finset.mem_sdiff.1 hv).1
        have hvC : v ∉ C := (Finset.mem_sdiff.1 hv).2
        have hwrem : w ∈ remain := hclosed v hvrem hw
        refine Finset.mem_sdiff.2 ⟨hwrem, fun hwC => hvC ?_⟩
        have h1 : compF s.E w = C := compF_eq_of_mem hwC
        have h2 : compF s.E w = compF s.E v := compF_eq_of_mem hw
        rw [← h1, h2]
        exact compF_self _ _
      have hgood1 : ∀ v ∈ D \ (remain \ C), GoodAt s1 v := by
        intro v hv
        have hvD : v ∈ D := (Finset.mem_sdiff.1 hv).1
        have hvcase : v ∉ remain ∨ v ∈ C := by
          have := (Finset.mem_sdiff.1 hv).2
          by_cases hvr : v ∈ remain
          · right
            by_contra hvC
            exact this (Finset.mem_sdiff.2 ⟨hvr, hvC⟩)
          · left; exact hvr
        rcases hvcase with hvrem | hvC
        · -- v was already good in s; nothing it references changes
          have hgv : GoodAt s v := hgood v (Finset.mem_sdiff.2 ⟨hvD, hvrem⟩)
          have hvC : v ∉ C := fun hvC => hvrem (hCrem hvC)
          have hv_inds : s1.cluster_inds v = s.cluster_inds v := by
            rw [hinds1, if_neg hvC]
          have hcomp_disj : ∀ w ∈ compF s.E v, w ∉ C := by
            intro w hw hwC
            have h1 : compF s.E w = C := compF_eq_of_mem hwC
            have h2 : compF s.E w = compF s.E v := compF_eq_of_mem hw
            have : v ∈ C := by
              rw [← h1, h2]; exact compF_self _ _
            exact hvC this
          constructor
          · show (s1.clusters (s1.cluster_inds v)).users = compF s1.E v
            rw [hv_inds, husers1, if_neg (hindsk_ne v)]
            exact hgv.1
          · intro w hw
            have hw' : w ∈ compF s.E v := hw
            rw [hinds1, if_neg (hcomp_disj w hw'), hv_inds]
            exact hgv.2 w hw'
        · -- v is in the freshly materialized component C
          have hcompv : compF s.E v = C := compF_eq_of_mem hvC
          have hv_inds : s1.cluster_inds v = k := by
            rw [hinds1, if_pos hvC]
          constructor
          · show (s1.clusters (s1.cluster_inds v)).users = compF s1.E v
            rw [hv_inds, husers1, if_pos rfl]
            exact hcompv.symm
          · intro w hw
            have hw' : w ∈ compF s.E v := hw
            have hwC : w ∈ C := hcompv ▸ hw'
            rw [hinds1, if_pos hwC, hv_inds]
      have hkeys1 : ∀ v, s1.cluster_inds v ∈ s1.clusterKeys := by
        intro v
        rw [hinds1]
        by_cases hv : v ∈ C
        · rw [if_pos hv]; exact Finset.mem_insert_self _ _
        · rw [if_neg hv]; exact Finset.mem_insert_of_mem (hkeys v)
      have hfresh1 : ∀ key ∈ s1.clusterKeys, key < k + 1 := by
        intro key hkey
        rcases Finset.mem_insert.1 hkey with rfl | hkey
        · omega
        · have := hfresh key hkey; omega
      have htransferG : ∀ w, w ∉ D → GoodAt s w → GoodAt s1 w := by
        intro w hwD hgw
        have hwC : w ∉ C := fun hwC => hwD (hCD hwC)
        have hw_inds : s1.cluster_inds w = s.cluster_inds w := by
          rw [hinds1, if_neg hwC]
        have hcomp_disj : ∀ v' ∈ compF s.E w, v' ∉ C := by
          intro v' hv' hv'C
          have h1 : compF s.E v' ⊆ D := hDc v' (hCD hv'C)
          have h2 : compF s.E v' = compF s.E w := compF_eq_of_mem hv'
          have : w ∈ compF s.E v' := by rw [h2]; exact compF_self _ _
          exact hwD (h1 this)
        constructor
        · show (s1.clusters (s1.cluster_inds w)).users = compF s1.E w
          rw [hw_inds, husers1, if_neg (hindsk_ne w)]
          exact hgw.1
        · intro v' hv'
          have hv'' : v' ∈ compF s.E w := hv'
          rw [hinds1, if_neg (hcomp_disj v' hv''), hw_inds]
          exact hgw.2 v' hv''
      have htransferO : ∀ w, w ∉ D → OldAt s Eold w → OldAt s1 Eold w := by
        intro w hwD how
        have hwC : w ∉ C := fun hwC => hwD (hCD hwC)
        have hw_inds : s1.cluster_inds w = s.cluster_inds w := by
          rw [hinds1, if_neg hwC]
        have hcomp_disj : ∀ v' ∈ compF Eold w, v' ∉ C := by
          intro v' hv' hv'C
          have h1 : compF Eold v' = D := hD v' (hCD hv'C)
          have h2 : compF Eold v' = compF Eold w := compF_eq_of_mem hv'
          have : w ∈ compF Eold v' := by rw [h2]; exact compF_self _ _
          exact hwD (h1 ▸ this)
        constructor
        · show (s1.clusters (s1.cluster_inds w)).users = compF Eold w
          rw [hw_inds, husers1, if_neg (hindsk_ne w)]
          exact how.1
        · intro v' hv'
          rw [hinds1, if_neg (hcomp_disj v' hv'), hw_inds]
          exact how.2 v' hv'
      obtain ⟨ih1, ih2, ih3, ih4⟩ := ih (remain \ C) (k + 1) s1 hsub1 hDc1
        hcard1 hremD1 hclosed1 hgood1 hkeys1 hfresh1
      exact ⟨ih1, fun w hw hg => ih2 w hw (htransferG w hw hg),
        fun w hw ho => ih3 w hw (htransferO w hw ho), ih4⟩
    · simp only [splitLoop]
      rw [if_neg hne]
      have hrem : remain = ∅ := Finset.not_nonempty_iff_eq_empty.1 hne
      subst hrem
      refine ⟨?_, fun w _ hg => hg, fun w _ ho => ho, hkeys⟩
      intro v hv
      exact hgood v (by simpa using hv)

/-- One iteration of the component-reassignment loop establishes the
invariant at the processed context and preserves it everywhere else. -/
theorem reassignBody_spec {n d : ℕ} (pick : Finset (Fin n) → Fin n)
    (hpick : ∀ u : Finset (Fin n), u.Nonempty → pick u ∈ u)
    (Eold : Finset (Fin n × Fin n)) (s : CLUBState n d) (i : Fin n)
    (hsub : s.E ⊆ Eold) (hPhi : PhiInv s Eold) :
    PhiInv (reassignBody pick s i) Eold ∧
    GoodAt (reassignBody pick s i) i ∧
    (∀ w, GoodAt s w → GoodAt (reassignBody pick s i) w) ∧
    (reassignBody pick s i).E = s.E := by
  obtain ⟨hkeys, hdisj⟩ := hPhi
  by_cases hbr : (compF s.E i).card < (s.clusters (s.cluster_inds i)).users.card
  · -- the recorded cluster is strictly larger: a split happens
    have ho : OldAt s Eold i := by
      rcases hdisj i with hg | ho
      · exfalso
        rw [hg.1] at hbr
        exact lt_irrefl _ hbr
      · exact ho
    have hiD : i ∈ compF Eold i := compF_self _ _
    have hCD : compF s.E i ⊆ compF Eold i := compF_mono hsub i
    have hkey_ne : ∀ w, w ∉ compF Eold i →
        s.cluster_inds w ≠ s.cluster_inds i := by
      intro w hwD heq
      rcases hdisj w with hg | how
      · have h1 : (s.clusters (s.cluster_inds i)).users = compF s.E w := by
          rw [← heq]; exact hg.1
        rw [ho.1] at h1
        exact hwD (h1 ▸ compF_self _ _)
      · have h1 : (s.clusters (s.cluster_inds i)).users = compF Eold w := by
          rw [← heq]; exact how.1
        rw [ho.1] at h1
        exact hwD (h1 ▸ compF_self _ _)
    simp only [reassignBody]
    rw [if_pos hbr, ho.1]
    set C := compF s.E i with hC_def
    set ci := s.cluster_inds i with hci_def
    set D := compF Eold i with hD_def
    set s1 : CLUBState n d := { s with
      clusters := Function.update s.clusters ci
        (mkCluster C (aggM s C) (aggB s C) (aggN s C)),
      clusterKeys := insert ci s.clusterKeys } with hs1_def
    have hs1_inds : s1.cluster_inds = s.cluster_inds := rfl
    have hs1_users : ∀ key, (s1.clusters key).users =
        if key = ci then C else (s.clusters key).users := by
      intro key
      show (Function.update s.clusters ci
        (mkCluster C (aggM s C) (aggB s C) (aggN s C)) key).users = _
      rw [Function.update_apply]
      by_cases hk : key = ci
      · rw [if_pos hk, if_pos hk]
        rfl
      · rw [if_neg hk, if_neg hk]
    have hD_comp : ∀ v ∈ D, compF Eold v = D := fun v hv => compF_eq_of_mem hv
    have hsub1 : s1.E ⊆ Eold := hsub
    have hDc1 : ∀ v ∈ D, compF s1.E v ⊆ D := by
      intro v hv w hw
      have h1 : compF s.E v ⊆ compF Eold v := compF_mono hsub v
      rw [hD_comp v hv] at h1
      exact h1 hw
    have hclosed1 : ∀ v ∈ D \ C, compF s1.E v ⊆ D \ C := by
      intro v hv w hw
      have hvD : v ∈ D := (Finset.mem_sdiff.1 hv).1
      have hvC : v ∉ C := (Finset.mem_sdiff.1 hv).2
      refine Finset.mem_sdiff.2 ⟨hDc1 v hvD hw, fun hwC => hvC ?_⟩
      have h1 : compF s.E w = C := compF_eq_of_mem hwC
      have h2 : compF s.E w = compF s.E v := compF_eq_of_mem hw
      rw [← h1, h2]
      exact compF_self _ _
    have hgood1 : ∀ v ∈ D \ (D \ C), GoodAt s1 v := by
      intro v hv
      rw [Finset.sdiff_sdiff_eq_self hCD] at hv
      have hvD : v ∈ D := hCD hv
      have hv_inds : s1.cluster_inds v = ci := by
        rw [hs1_inds]; exact ho.2 v hvD
      have hcompv : compF s.E v = C := compF_eq_of_mem hv
      constructor
      · show (s1.clusters (s1.cluster_inds v)).users = compF s1.E v
        rw [hv_inds, hs1_users, if_pos rfl]
        exact hcompv.symm
      · intro w hw
        have hw' : w ∈ compF s.E v := hw
        have hwC : w ∈ C := hcompv ▸ hw'
        show s1.cluster_inds w = s1.cluster_inds v
        rw [hs1_inds, hv_inds]
        exact ho.2 w (hCD hwC)
    have hkeys1 : ∀ v, s1.cluster_inds v ∈ s1.clusterKeys := fun v =>
      Finset.mem_insert_of_mem (hkeys v)
    have hfresh1 : ∀ key ∈ s1.clusterKeys, key < freshKey s1.clusterKeys :=
      fun key hk => lt_freshKey hk
    have htransG : ∀ w, w ∉ D → GoodAt s w → GoodAt s1 w := by
      intro w hwD hgw
      constructor
      · show (s1.clusters (s1.cluster_inds w)).users = compF s1.E w
        rw [hs1_inds, hs1_users, if_neg (hkey_ne w hwD)]
        exact hgw.1
      · intro v hv
        show s1.cluster_inds v = s1.cluster_inds w
        rw [hs1_inds]
        exact hgw.2 v hv
    have htransO : ∀ w, w ∉ D → OldAt s Eold w → OldAt s1 Eold w := by
      intro w hwD how
      constructor
      · show (s1.clusters (s1.cluster_inds w)).users = compF Eold w
        rw [hs1_inds, hs1_users, if_neg (hkey_ne w hwD)]
        exact how.1
      · intro v hv
        show s1.cluster_inds v = s1.cluster_inds w
        rw [hs1_inds]
        exact how.2 v hv
    obtain ⟨c2, c3, c4, c5⟩ := splitLoop_spec pick hpick Eold D hD_comp
      (D \ C).card (D \ C) (freshKey s1.clusterKeys) s1 hsub1 hDc1
      (le_refl _) Finset.sdiff_subset hclosed1 hgood1 hkeys1 hfresh1
    have hE : (splitLoop pick (D \ C).card (D \ C)
        (freshKey s1.clusterKeys) s1).E = s.E := splitLoop_E pick _ _ _ _
    refine ⟨⟨c5, ?_⟩, c2 i hiD, ?_, hE⟩
    · intro w
      by_cases hwD : w ∈ D
      · exact Or.inl (c2 w hwD)
      · rcases hdisj w with hg | how
        · exact Or.inl (c3 w hwD (htransG w hwD hg))
        · exact Or.inr (c4 w hwD (htransO w hwD how))
    · intro w hg
      by_cases hwD : w ∈ D
      · exact c2 w hwD
      · exact c3 w hwD (htransG w hwD hg)
  · -- no split: the recorded cluster already is the component
    have hbody : reassignBody pick s i = s := by
      simp only [reassignBody]
      rw [if_neg hbr]
    rw [hbody]
    refine ⟨⟨hkeys, hdisj⟩, ?_, fun w hg => hg, rfl⟩
    rcases hdisj i with hg | ho
    · exact hg
    · have hCsub : compF s.E i ⊆ compF Eold i := compF_mono hsub i
      have hEq : compF s.E i = compF Eold i := by
        apply Finset.eq_of_subset_of_card_le hCsub
        rw [← ho.1]
        omega
      constructor
      · rw [ho.1, ← hEq]
      · intro v hv
        exact ho.2 v (hCsub hv)

theorem reassign_fold_spec {n d : ℕ} (pick : Finset (Fin n) → Fin n)
    (hpick : ∀ u : Finset (Fin n), u.Nonempty → pick u ∈ u)
    (Eold : Finset (Fin n × Fin n)) (l : List (Fin n)) :
    ∀ s : CLUBState n d, s.E ⊆ Eold → PhiInv s Eold →
      PhiInv (l.foldl (reassignBody pick) s) Eold ∧
      (∀ i ∈ l, GoodAt (l.foldl (reassignBody pick) s) i) ∧
      (∀ w, GoodAt s w → GoodAt (l.foldl (reassignBody pick) s) w) ∧
      (l.foldl (reassignBody pick) s).E = s.E := by
  induction l with
  | nil =>
    intro s h1 h2
    exact ⟨h2, by simp, fun w hg => hg, rfl⟩
  | cons i l ih =>
    intro s hsub hPhi
    rw [List.foldl_cons]
    obtain ⟨b1, b2, b3, b4⟩ := reassignBody_spec pick hpick Eold s i hsub hPhi
    obtain ⟨f1, f2, f3, f4⟩ := ih (reassignBody pick s i) (by rw [b4]; exact hsub) b1
    refine ⟨f1, ?_, fun w hg => f3 w (b3 w hg), by rw [f4, b4]⟩
    intro i' hi'
    rcases List.mem_cons.1 hi' with rfl | hi'
    · exact f3 i' b2
    · exact f2 i' hi'

theorem clubInv_num_clusters {n d : ℕ} (x : CLUBState n d) (l : List ℕ)
    (hx : ClubInv x) : ClubInv { x with num_clusters := l } :=
  ⟨hx.1, hx.2.1, hx.2.2⟩

theorem updateCluster_inv {n d : ℕ} (pick : Finset (Fin n) → Fin n)
    (hpick : ∀ u : Finset (Fin n), u.Nonempty → pick u ∈ u)
    (s : CLUBState n d) (hInv : ClubInv s) :
    ClubInv (updateCluster pick s) := by
  obtain ⟨h1, h2, h3⟩ := hInv
  simp only [updateCluster]
  apply clubInv_num_clusters
  by_cases hflag : (cutFold (cutCond s) s.E).2 = true
  · rw [if_pos hflag]
    have hsub : ({ s with E := (cutFold (cutCond s) s.E).1 } : CLUBState n d).E ⊆ s.E :=
      cutFold_fst_subset _ _
    have hPhi : PhiInv ({ s with E := (cutFold (cutCond s) s.E).1 } : CLUBState n d) s.E :=
      ⟨fun i => h1 i, fun i =>
        Or.inr ⟨h2 i, fun v hv => (h3 i v (mem_compF.1 hv)).symm⟩⟩
    obtain ⟨f1, f2, f3, f4⟩ := reassign_fold_spec pick hpick s.E
      (List.finRange n) _ hsub hPhi
    exact ⟨f1.1, fun i => (f2 i (List.mem_finRange i)).1,
      fun i j hr => ((f2 i (List.mem_finRange i)).2 j (mem_compF.2 hr)).symm⟩
  · rw [if_neg hflag]
    have hff : (cutFold (cutCond s) s.E).2 = false := by
      cases h : (cutFold (cutCond s) s.E).2 with
      | false => rfl
      | true => exact absurd h hflag
    have hE := cutFold_of_flag_false (cutCond s) s.E hff
    rw [hE]
    exact ⟨h1, h2, h3⟩

theorem updateStats_fold_inv {n d : ℕ} (pulls : List (Fin n × (Fin d → ℝ) × ℝ)) :
    ∀ s : CLUBState n d, ClubInv s →
      ClubInv (pulls.foldl (fun acc p => acc.updateStats p.1 p.2.1 p.2.2) s) := by
  induction pulls with
  | nil => intro s h; exact h
  | cons p ps ih =>
    intro s h
    rw [List.foldl_cons]
    exact ih _ (updateStats_inv s p.1 p.2.1 p.2.2 h)

theorem roundStep_inv {n d : ℕ} (pick : Finset (Fin n) → Fin n)
    (hpick : ∀ u : Finset (Fin n), u.Nonempty → pick u ∈ u)
    (s : CLUBState n d) (pulls : List (Fin n × (Fin d → ℝ) × ℝ))
    (h : ClubInv s) : ClubInv (roundStep pick s pulls) := by
  have h2 := updateCluster_inv pick hpick _ (updateStats_fold_inv pulls s h)
  exact ⟨h2.1, h2.2.1, h2.2.2⟩

theorem runScript_inv {n d : ℕ} (pick : Finset (Fin n) → Fin n)
    (hpick : ∀ u : Finset (Fin n), u.Nonempty → pick u ∈ u)
    (script : List (List (Fin n × (Fin d → ℝ) × ℝ))) :
    ∀ s : CLUBState n d, ClubInv s → ClubInv (runScript pick s script) := by
  induction script with
  | nil => intro s h; exact h
  | cons r rs ih =>
    intro s h
    rw [runScript]
    exact ih _ (roundStep_inv pick hpick s r h)

theorem initState_inv {n d : ℕ} (arms : List (Fin d → ℝ)) (horizon : ℕ)
    (E0 : Finset (Fin n × Fin n)) (hconn : (graphOf E0).Preconnected) :
    ClubInv (initState d arms horizon E0) := by
  refine ⟨fun i => Finset.mem_singleton_self 0, fun i => ?_, fun i j _ => rfl⟩
  show (Finset.univ : Finset (Fin n)) = compF E0 i
  ext x
  simp only [Finset.mem_univ, true_iff, mem_compF]
  exact hconn i x

/-- C1 amended: provided the initial hypothesis graph is connected (as with
the default `edge_probability = 1`, which yields the complete graph), then
at every round, after the per-round cluster maintenance, the membership set
of the cluster recorded in `cluster_inds[i]` equals the connected component
of `i` in the hypothesis graph, for every context `i`, every run, and every
resolution of the `np.random.choice` draws. -/
theorem club_clusters_eq_components {n d : ℕ} (pick : Finset (Fin n) → Fin n)
    (hpick : ∀ u : Finset (Fin n), u.Nonempty → pick u ∈ u)
    (arms : List (Fin d → ℝ)) (horizon : ℕ) (E0 : Finset (Fin n × Fin n))
    (hconn : (graphOf E0).Preconnected)
    (script : List (List (Fin n × (Fin d → ℝ) × ℝ))) (i : Fin n) :
    ((runScript pick (initState d arms horizon E0) script).clusters
        ((runScript pick (initState d arms horizon E0) script).cluster_inds i)).users =
      compF (runScript pick (initState d arms horizon E0) script).E i :=
  (runScript_inv pick hpick script _ (initState_inv arms horizon E0 hconn)).2.1 i

/-- Witness for `club_clusters_eq_components`: one context, empty initial
graph (trivially connected), one round. -/
theorem club_clusters_eq_components_witness :
    (∀ u : Finset (Fin 1), u.Nonempty → pick1 u ∈ u) ∧
    (graphOf (∅ : Finset (Fin 1 × Fin 1))).Preconnected ∧
    ((runScript pick1 (initState 1 [![1]] 3 (∅ : Finset (Fin 1 × Fin 1))) [[]]).clusters
        ((runScript pick1 (initState 1 [![1]] 3 (∅ : Finset (Fin 1 × Fin 1)))
          [[]]).cluster_inds 0)).users =
      compF (runScript pick1 (initState 1 [![1]] 3 (∅ : Finset (Fin 1 × Fin 1)))
        [[]]).E 0 := by
  have hpick : ∀ u : Finset (Fin 1), u.Nonempty → pick1 u ∈ u := by
    intro u hu
    simp only [pick1]
    rw [dif_pos hu]
    exact u.min'_mem hu
  have hconn : (graphOf (∅ : Finset (Fin 1 × Fin 1))).Preconnected := by
    intro a b
    have hab : a = b := Subsingleton.elim a b
    subst hab
    exact SimpleGraph.Reachable.refl a
  exact ⟨hpick, hconn,
    club_clusters_eq_components pick1 hpick [![1]] 3 ∅ hconn [[]] 0⟩

/-! ## Claim C8: ProductLinUCB residual ordering -/

/-- C8: `ProductLinUCBAgent.update(reward)` updates the per-context
sub-agent with the residual `reward - theta_hat_global . arm`, where
`theta_hat_global` is the global sub-agent's estimate *before* its own
update, and updates the global sub-agent with the raw reward. -/
theorem product_update_residual_uses_pre_update_global {d : ℕ}
    (s : ProductLinUCBAgent d) (reward : ℝ) :
    (s.update reward).agent_global = s.agent_global.update reward ∧
    (s.update reward).context_agent s.last_context_i =
      (s.context_agent s.last_context_i).update
        (reward - dotv s.agent_global.theta_hat
          (s.arms.getD s.agent_global.last_pull_i 0)) := by
  constructor
  · rfl
  · simp [ProductLinUCBAgent.update]

end ClusteringBandits
